import Mathlib

/-!
Shallow embedding of the epub-illustrator pipeline (src/utils.py and
src/image_gen.py).  Text is modelled as `List Char`; Python's substring
operations (`in`, `str.find` / `str.index`, `str.replace`, `str.strip`,
`str.split('\n')`, `html.escape`) are embedded as executable functions
below, and the EPUB-specific components (spine resolution, zip packaging,
the Gemini retry loop, the per-illustration orchestrator step and the
`--max-files` truncation) are embedded as explicit state-passing
functions.
-/

/-- The opening token of an illustration marker, the literal searched for by
`extract_illustrations` (src/utils.py line 44). -/
def tok : List Char := "<!-- illustration:".data

/-- The closing delimiter of an illustration marker (src/utils.py line 46). -/
def arrow : List Char := "-->".data

/-- Python `str.strip()` whitespace class (ASCII part). -/
def isWs (c : Char) : Bool :=
  c = ' ' || c = '\t' || c = '\n' || c = '\r' || c = '\x0b' || c = '\x0c'

/-- Python `str.strip()`: drop whitespace from both ends. -/
def pyStrip (s : List Char) : List Char :=
  ((s.dropWhile isWs).reverse.dropWhile isWs).reverse

/-- Python's substring test `pat in s`. -/
def hasSub (pat : List Char) : List Char → Bool
  | [] => pat.isEmpty
  | c :: rest => pat.isPrefixOf (c :: rest) || hasSub pat rest

/-- Python's `s.find(pat)` (and `s.index(pat)` when it succeeds): index of the
first occurrence of `pat` in `s`. -/
def findSub (pat : List Char) : List Char → Option Nat
  | [] => if pat.isEmpty then some 0 else none
  | c :: rest => if pat.isPrefixOf (c :: rest) then some 0
                 else (findSub pat rest).map (· + 1)

/-- Fuel-indexed body of Python `str.replace(pat, rep)` (no count argument:
every non-overlapping occurrence is replaced, scanning left to right).
The fuel is always instantiated with the length of the string, which is
sufficient; it only exists to make the recursion structural. -/
def replaceAllFuel (pat rep : List Char) : Nat → List Char → List Char
  | 0, s => s
  | _ + 1, [] => []
  | f + 1, c :: rest =>
      if pat.isPrefixOf (c :: rest) then
        rep ++ replaceAllFuel pat rep f (rest.drop (pat.length - 1))
      else
        c :: replaceAllFuel pat rep f rest

/-- Python `s.replace(pat, rep)` for nonempty `pat`
(src/image_gen.py lines 267-270 call it with the marker string). -/
def replaceAll (pat rep s : List Char) : List Char :=
  replaceAllFuel pat rep s.length s

/-- Fuel-indexed count of non-overlapping occurrences (same scan as
`replaceAllFuel`); used to state "exactly one occurrence" properties. -/
def countSubFuel (pat : List Char) : Nat → List Char → Nat
  | 0, _ => 0
  | _ + 1, [] => 0
  | f + 1, c :: rest =>
      if pat.isPrefixOf (c :: rest) then
        1 + countSubFuel pat f (rest.drop (pat.length - 1))
      else
        countSubFuel pat f rest

/-- Number of non-overlapping occurrences of `pat` in `s`, counted with the
same left-to-right scan as `replaceAll`. -/
def countSub (pat s : List Char) : Nat :=
  countSubFuel pat s.length s

/-- Python `content.split('\n')` (src/utils.py line 43). -/
def splitLines : List Char → List (List Char)
  | [] => [[]]
  | c :: rest =>
    match splitLines rest with
    | [] => [[]]
    | l :: ls => if c = '\n' then [] :: l :: ls else (c :: l) :: ls

/-- The loop body of `extract_illustrations` (src/utils.py lines 42-48),
over the already-split lines.  `none` models the `ValueError` raised by
`line.index('-->', start)` when a line contains the opening token but no
closing delimiter after it. -/
def extractLines : List (List Char) → Option (List (List Char))
  | [] => some []
  | line :: rest =>
    if hasSub tok line then
      let start := (findSub tok line).getD 0 + tok.length
      match findSub arrow (line.drop start) with
      | none => none
      | some j =>
        match extractLines rest with
        | none => none
        | some ds => some (pyStrip ((line.drop start).take j) :: ds)
    else extractLines rest

/-- `extract_illustrations` (src/utils.py lines 38-48): scan the content line
by line, and on each line containing the opening token capture the stripped
text between the token and the next `-->` on that line.  `none` models the
uncaught `ValueError`. -/
def extract_illustrations (content : List Char) : Option (List (List Char)) :=
  extractLines (splitLines content)

/-- Python `html.escape(s)` with `quote=True` (the default), as called at
src/image_gen.py line 269: successive replacements of `&`, `<`, `>`, `"`,
`'`. -/
def htmlEscape (s : List Char) : List Char :=
  replaceAll ['\''] "&#x27;".data
    (replaceAll ['"'] "&quot;".data
      (replaceAll ['>'] "&gt;".data
        (replaceAll ['<'] "&lt;".data
          (replaceAll ['&'] "&amp;".data s))))

/-- Per-character version of `htmlEscape`; proved equal to it below. -/
def escChar (c : Char) : List Char :=
  if c = '&' then "&amp;".data
  else if c = '<' then "&lt;".data
  else if c = '>' then "&gt;".data
  else if c = '"' then "&quot;".data
  else if c = '\'' then "&#x27;".data
  else [c]

/-- The exact replacement target built at src/image_gen.py line 268:
`f"<!-- illustration: {illustration} -->"` (one space after the colon, one
space before the closing delimiter). -/
def markerStr (d : List Char) : List Char :=
  "<!-- illustration: ".data ++ d ++ " -->".data

/-- The replacement text built at src/image_gen.py line 269:
`f"<p><img src='{src}' alt='{html.escape(alt)}' /></p>"`. -/
def imgTag (src alt : List Char) : List Char :=
  "<p><img src='".data ++ src ++ "' alt='".data ++ htmlEscape alt ++
    "' /></p>".data

/-- The three fixed literal segments of `imgTag`, named for the occurrence
analysis below. -/
def imgL1 : List Char := "<p><img src='".data

def imgL2 : List Char := "' alt='".data

def imgL3 : List Char := "' /></p>".data

/-- `pat` occurs in `s` starting at index `i`. -/
def matchAt (pat s : List Char) (i : Nat) : Prop :=
  pat.isPrefixOf (s.drop i) = true

instance (pat s : List Char) (i : Nat) : Decidable (matchAt pat s i) := by
  unfold matchAt; infer_instance

/-! ### Spine resolution (src/utils.py lines 22-36) -/

/-- The manifest dict built by `for item in ...: manifest[item.attrib['id']] =
item.attrib['href']` (src/utils.py lines 27-29): later bindings overwrite
earlier ones. -/
def buildManifest (items : List (String × String)) : String → Option String :=
  items.foldl (fun m it => fun k => if k = it.1 then some it.2 else m k)
    (fun _ => none)

/-- Split an href into `/`-separated components. -/
def splitSlash (s : String) : List String :=
  (s.data.splitOn '/').map fun cs => String.mk cs

/-- `os.path.normpath` on a list of path components: drop `.` and empty
components and cancel `..` against a preceding non-`..` component. -/
def normComps (comps : List String) : List String :=
  comps.foldl
    (fun acc c =>
      if c = "" ∨ c = "." then acc
      else if c = ".." then
        match acc.getLast? with
        | some l => if l = ".." then acc ++ [".."] else acc.dropLast
        | none => acc ++ [".."]
      else acc ++ [c])
    []

/-- Resolution of one `idref` (src/utils.py lines 32-35):
`os.path.normpath(os.path.join(os.path.dirname(opf_path), href))`, with
`opfDir` standing for the components of `os.path.dirname(opf_path)`.
The junk value for a missing id is never used by `spineLoop`. -/
def resolveRef (manifest : String → Option String) (opfDir : List String)
    (idref : String) : List String :=
  match manifest idref with
  | some href => normComps (opfDir ++ splitSlash href)
  | none => []

/-- The `for itemref in spine` loop (src/utils.py lines 30-35): resolve each
idref through the manifest in document order; `none` models the uncaught
`KeyError` (the spec's `MalformedPackage`) raised by `manifest[idref]` when
an idref has no manifest entry. -/
def spineLoop (manifest : String → Option String) (opfDir : List String) :
    List String → Option (List (List String))
  | [] => some []
  | idref :: rest =>
    match manifest idref with
    | none => none
    | some href =>
      (spineLoop manifest opfDir rest).map
        (normComps (opfDir ++ splitSlash href) :: ·)

/-! ### Zip repackaging (src/image_gen.py lines 141-162) -/

inductive ZipMethod where
  | stored
  | deflated
deriving DecidableEq, Repr

structure ZipEntry where
  name : List String
  method : ZipMethod
deriving DecidableEq, Repr

/-- `zip_epub` (src/image_gen.py lines 141-162): `files` is the list of
working-tree files (as paths relative to the tree root, in `os.walk`
order).  If a root-level `mimetype` exists it is written first with
`ZIP_STORED`; the walk then writes every other file with `ZIP_DEFLATED`,
skipping `mimetype` when it is encountered again. -/
def zip_epub (files : List (List String)) : List ZipEntry :=
  (if ["mimetype"] ∈ files then [ZipEntry.mk ["mimetype"] ZipMethod.stored]
   else [])
    ++ (files.filter (fun p => p ≠ ["mimetype"])).map
        (fun p => ZipEntry.mk p ZipMethod.deflated)

/-! ### Gemini retry loop (src/image_gen.py lines 90-139) -/

/-- Outcome of one call to the augmentation service: success with the
returned content, a transient overload signal (`'503'`/`'overloaded'` in the
exception text), or any other error. -/
inductive GemResult where
  | success (c : List Char)
  | overloaded
  | error
deriving DecidableEq, Repr

/-- The `for attempt in range(max_retries)` loop of `gemini_illustrate_file`
(src/image_gen.py lines 108-139), with the service abstracted as a function
of the attempt number.  Returns `(calls, sleeps, content)`: the number of
service calls made, the number of backoff sleeps performed, and the returned
content (`[]` models the `""` returned on failure). -/
def geminiGo (svc : Nat → GemResult) : Nat → Nat → Nat × Nat × List Char
  | _, 0 => (0, 0, [])
  | attempt, r + 1 =>
    match svc attempt with
    | GemResult.success c => (1, 0, c)
    | GemResult.overloaded =>
        let rest := geminiGo svc (attempt + 1) r
        (rest.1 + 1, rest.2.1 + 1, rest.2.2)
    | GemResult.error => (1, 0, [])

/-- `gemini_illustrate_file` (src/image_gen.py lines 90-139) at the retry
level: run the loop from attempt 0 with `maxRetries` attempts remaining. -/
def gemini_illustrate_file (svc : Nat → GemResult) (maxRetries : Nat) :
    Nat × Nat × List Char :=
  geminiGo svc 0 maxRetries

/-! ### Per-illustration orchestrator step (src/image_gen.py lines 241-270) -/

/-- `f"illustration_{counter}.png"` (src/image_gen.py line 245): the cache
key / filename is computed from the counter alone. -/
def illFilename (idx : Nat) : List Char :=
  ("illustration_" ++ toString idx ++ ".png").data

/-- State threaded through the `for illustration in illustrations` loop of
`process_epub`: the global counter, the `./illustrations` cache directory,
the `OEBPS/Images` destination directory, the list of image-service
invocations made so far (for stating "the service is not invoked"), and the
content document text being rewritten. -/
structure IllState where
  counter : Nat
  cache : Nat → Option (List Nat)
  images : Nat → Option (List Nat)
  calls : List (List Char)
  content : List Char

/-- One iteration of the illustration loop (src/image_gen.py lines 241-270):
compute the counter-keyed filename, bump the counter, copy from the cache on
a hit, otherwise call the image service (`none` = failure, `some bytes` =
success, which also stores the bytes in the cache), and finally - in the
source, unconditionally - replace the marker string with the image tag. -/
def processIllustration (service : List Char → Option (List Nat))
    (imgRelPath : List Char) (st : IllState) (illustration : List Char) :
    IllState :=
  let idx := st.counter
  let fname := illFilename idx
  let afterGen : IllState :=
    match st.cache idx with
    | some bytes =>
        { st with
          counter := idx + 1,
          images := fun j => if j = idx then some bytes else st.images j }
    | none =>
        match service illustration with
        | some bytes =>
            { st with
              counter := idx + 1,
              calls := st.calls ++ [illustration],
              images := fun j => if j = idx then some bytes else st.images j,
              cache := fun j => if j = idx then some bytes else st.cache j }
        | none =>
            { st with
              counter := idx + 1,
              calls := st.calls ++ [illustration] }
  { afterGen with
    content := replaceAll (markerStr illustration)
      (imgTag (imgRelPath ++ '/' :: fname) illustration) afterGen.content }

/-! ### `--max-files` truncation (src/image_gen.py lines 204-207) -/

/-- `if max_files and max_files > 0: spine_items = spine_items[:max_files]`:
`max_files` is `None` when the flag is absent; `0` is falsy in Python, so
the truncation is skipped both for `None` and for any `n ≤ 0`. -/
def limitSpine (maxFiles : Option Int) (spine : List String) : List String :=
  match maxFiles with
  | none => spine
  | some n => if n ≠ 0 ∧ 0 < n then spine.take n.toNat else spine

/-- A line is safe for `extract_illustrations`: either it has no opening
token, or it has a `-->` after the first opening token (otherwise
`line.index('-->', start)` raises `ValueError`). -/
def lineOk (line : List Char) : Bool :=
  !(hasSub tok line) ||
    hasSub arrow (line.drop ((findSub tok line).getD 0 + tok.length))

/-! ### Basic list toolkit -/

theorem take_append_le {α} (y : List α) :
    ∀ (u : List α) (n : Nat), n ≤ u.length → (u ++ y).take n = u.take n := by
  intro u
  induction u with
  | nil =>
    intro n hn
    simp only [List.length_nil, Nat.le_zero] at hn
    subst hn
    rfl
  | cons a u ih =>
    intro n hn
    cases n with
    | zero => rfl
    | succ m =>
      simp only [List.cons_append, List.take_succ_cons]
      rw [ih m (by simpa using hn)]

theorem drop_append_le {α} (y : List α) :
    ∀ (u : List α) (n : Nat), n ≤ u.length → (u ++ y).drop n = u.drop n ++ y := by
  intro u
  induction u with
  | nil =>
    intro n hn
    simp only [List.length_nil, Nat.le_zero] at hn
    subst hn
    rfl
  | cons a u ih =>
    intro n hn
    cases n with
    | zero => rfl
    | succ m =>
      simp only [List.cons_append, List.drop_succ_cons]
      exact ih m (by simpa using hn)

theorem drop_append_ge {α} (y : List α) :
    ∀ (u : List α) (n : Nat), u.length ≤ n → (u ++ y).drop n = y.drop (n - u.length) := by
  intro u
  induction u with
  | nil => intro n _; simp
  | cons a u ih =>
    intro n hn
    cases n with
    | zero => simp at hn
    | succ m =>
      simp only [List.cons_append, List.drop_succ_cons]
      rw [ih m (by simpa using hn)]
      simp [Nat.succ_sub_succ]

theorem getq_drop {α} (s : List α) (i j : Nat) : (s.drop i)[j]? = s[i + j]? := by
  induction s generalizing i j with
  | nil => simp
  | cons a s ih =>
    cases i with
    | zero => simp
    | succ m =>
      simp only [List.drop_succ_cons, ih m j]
      have : m + 1 + j = (m + j) + 1 := by omega
      rw [this]
      simp

/-! ### isPrefixOf toolkit -/

theorem ipo_iff {p s : List Char} : p.isPrefixOf s = true ↔ ∃ t, s = p ++ t := by
  induction p generalizing s with
  | nil =>
    constructor
    · intro _; exact ⟨s, rfl⟩
    · intro _; cases s <;> rfl
  | cons a as ih =>
    cases s with
    | nil =>
      constructor
      · intro h; exact absurd h (by simp [List.isPrefixOf])
      · rintro ⟨t, ht⟩; exact absurd ht (by simp)
    | cons b bs =>
      simp only [List.isPrefixOf, Bool.and_eq_true, beq_iff_eq]
      constructor
      · rintro ⟨hab, h⟩
        obtain ⟨t, rfl⟩ := ih.mp h
        exact ⟨t, by rw [hab]; rfl⟩
      · rintro ⟨t, ht⟩
        injection ht with h1 h2
        exact ⟨h1.symm, ih.mpr ⟨t, h2⟩⟩

theorem ipo_append_self (p t : List Char) : p.isPrefixOf (p ++ t) = true :=
  ipo_iff.mpr ⟨t, rfl⟩

theorem ipo_refl (p : List Char) : p.isPrefixOf p = true := by
  have := ipo_append_self p []
  rwa [List.append_nil] at this

theorem ipo_length {p s : List Char} (h : p.isPrefixOf s = true) :
    p.length ≤ s.length := by
  obtain ⟨t, rfl⟩ := ipo_iff.mp h
  simp

theorem ipo_take {p s : List Char} (h : p.isPrefixOf s = true) :
    s.take p.length = p := by
  obtain ⟨t, rfl⟩ := ipo_iff.mp h
  exact List.take_left p t

theorem ipo_of_append {p u y : List Char} (h : p.isPrefixOf (u ++ y) = true)
    (hl : p.length ≤ u.length) : p.isPrefixOf u = true := by
  have h1 : (u ++ y).take p.length = p := ipo_take h
  rw [take_append_le y u p.length hl] at h1
  refine ipo_iff.mpr ⟨u.drop p.length, ?_⟩
  calc u = u.take p.length ++ u.drop p.length := (List.take_append_drop _ u).symm
    _ = p ++ u.drop p.length := by rw [h1]

theorem ipo_append_right {p u y : List Char} (h : p.isPrefixOf u = true) :
    p.isPrefixOf (u ++ y) = true := by
  obtain ⟨t, rfl⟩ := ipo_iff.mp h
  rw [List.append_assoc]
  exact ipo_append_self p (t ++ y)

theorem ipo_trans {p q s : List Char} (h1 : p.isPrefixOf q = true)
    (h2 : q.isPrefixOf s = true) : p.isPrefixOf s = true := by
  obtain ⟨t, rfl⟩ := ipo_iff.mp h1
  obtain ⟨w, rfl⟩ := ipo_iff.mp h2
  rw [List.append_assoc]
  exact ipo_append_self p (t ++ w)

/-! ### hasSub / findSub / matchAt toolkit -/

theorem hasSub_iff {p s : List Char} :
    hasSub p s = true ↔ ∃ a b, s = a ++ p ++ b := by
  induction s with
  | nil =>
    simp only [hasSub, List.isEmpty_iff]
    constructor
    · rintro rfl; exact ⟨[], [], rfl⟩
    · rintro ⟨a, b, h⟩
      rcases List.append_eq_nil.mp (List.append_eq_nil.mp h.symm).1 with ⟨_, h2⟩
      exact h2
  | cons c rest ih =>
    simp only [hasSub, Bool.or_eq_true]
    constructor
    · rintro (h | h)
      · obtain ⟨t, ht⟩ := ipo_iff.mp h
        exact ⟨[], t, by simpa using ht⟩
      · obtain ⟨a, b, hab⟩ := ih.mp h
        exact ⟨c :: a, b, by simp [hab]⟩
    · rintro ⟨a, b, hab⟩
      cases a with
      | nil =>
        left
        simp only [List.nil_append] at hab
        rw [hab]
        exact ipo_append_self p b
      | cons x a =>
        right
        refine ih.mpr ⟨a, b, ?_⟩
        simpa using congrArg List.tail hab

theorem hasSub_of_ipo {p s : List Char} (h : p.isPrefixOf s = true) :
    hasSub p s = true := by
  obtain ⟨t, rfl⟩ := ipo_iff.mp h
  exact hasSub_iff.mpr ⟨[], t, rfl⟩

theorem hasSub_append_left {p x y : List Char} (h : hasSub p x = true) :
    hasSub p (x ++ y) = true := by
  obtain ⟨a, b, rfl⟩ := hasSub_iff.mp h
  exact hasSub_iff.mpr ⟨a, b ++ y, by simp⟩

theorem hasSub_append_right {p x y : List Char} (h : hasSub p y = true) :
    hasSub p (x ++ y) = true := by
  obtain ⟨a, b, rfl⟩ := hasSub_iff.mp h
  exact hasSub_iff.mpr ⟨x ++ a, b, by simp⟩

theorem hasSub_mono_pat {p q s : List Char} (hpq : q.isPrefixOf p = true)
    (h : hasSub p s = true) : hasSub q s = true := by
  obtain ⟨a, b, rfl⟩ := hasSub_iff.mp h
  obtain ⟨t, rfl⟩ := ipo_iff.mp hpq
  exact hasSub_iff.mpr ⟨a, t ++ b, by simp⟩

theorem matchAt_hasSub {p s : List Char} {i : Nat} (h : matchAt p s i) :
    hasSub p s = true := by
  obtain ⟨t, ht⟩ := ipo_iff.mp h
  refine hasSub_iff.mpr ⟨s.take i, t, ?_⟩
  calc s = s.take i ++ s.drop i := (List.take_append_drop i s).symm
    _ = s.take i ++ p ++ t := by rw [ht, List.append_assoc]

theorem hasSub_to_matchAt {p s : List Char} (h : hasSub p s = true) :
    ∃ i, matchAt p s i ∧ i + p.length ≤ s.length := by
  obtain ⟨a, b, rfl⟩ := hasSub_iff.mp h
  refine ⟨a.length, ?_, by simp⟩
  unfold matchAt
  rw [List.append_assoc, List.drop_left]
  exact ipo_append_self p b

theorem matchAt_zero {p s : List Char} : matchAt p s 0 ↔ p.isPrefixOf s = true := by
  unfold matchAt
  rw [List.drop_zero]

theorem matchAt_cons {p : List Char} {c : Char} {s : List Char} {i : Nat} :
    matchAt p (c :: s) (i + 1) ↔ matchAt p s i := by
  unfold matchAt
  rw [List.drop_succ_cons]

theorem matchAt_length {p s : List Char} {i : Nat} (hp : p ≠ [])
    (h : matchAt p s i) : i + p.length ≤ s.length := by
  obtain ⟨t, ht⟩ := ipo_iff.mp h
  have hl : s.length - i = p.length + t.length := by
    have := congrArg List.length ht
    simpa using this
  have : 1 ≤ p.length := by
    cases p with
    | nil => exact absurd rfl hp
    | cons _ _ => simp
  omega

theorem matchAt_getq {p s : List Char} {i : Nat} (h : matchAt p s i)
    {j : Nat} (hj : j < p.length) : s[i + j]? = p[j]? := by
  obtain ⟨t, ht⟩ := ipo_iff.mp h
  rw [← getq_drop, ht, List.getElem?_append_left hj]

theorem matchAt_append_lift {p b : List Char} {i : Nat} (a : List Char)
    (h : matchAt p b i) : matchAt p (a ++ b) (a.length + i) := by
  unfold matchAt at h ⊢
  rwa [drop_append_ge b a _ (by omega), Nat.add_sub_cancel_left]

theorem matchAt_within {p x y : List Char} {i : Nat}
    (h : matchAt p (x ++ y) i) (hl : i + p.length ≤ x.length) :
    matchAt p x i := by
  unfold matchAt at h ⊢
  rw [drop_append_le y x i (by omega)] at h
  exact ipo_of_append h (by simp; omega)

theorem matchAt_ge {p x y : List Char} {i : Nat}
    (h : matchAt p (x ++ y) i) (hl : x.length ≤ i) :
    matchAt p y (i - x.length) := by
  unfold matchAt at h ⊢
  rwa [drop_append_ge y x i hl] at h

theorem matchAt_mono_pat {p q s : List Char} {i : Nat}
    (hpq : q.isPrefixOf p = true) (h : matchAt p s i) : matchAt q s i :=
  ipo_trans hpq h

theorem findSub_eq_zero {p s : List Char} (h : p.isPrefixOf s = true) :
    findSub p s = some 0 := by
  cases s with
  | nil =>
    obtain ⟨t, ht⟩ := ipo_iff.mp h
    rcases List.append_eq_nil.mp ht.symm with ⟨hp, _⟩
    simp [findSub, hp]
  | cons c rest => simp [findSub, h]

theorem findSub_first {p s : List Char} {n : Nat} (h : findSub p s = some n) :
    matchAt p s n ∧ ∀ j, j < n → ¬ matchAt p s j := by
  induction s generalizing n with
  | nil =>
    by_cases hp : p.isEmpty
    · simp only [findSub, if_pos hp] at h
      cases h
      exact ⟨by simp [matchAt, List.isEmpty_iff.mp hp, List.isPrefixOf], by omega⟩
    · simp [findSub, hp] at h
  | cons c rest ih =>
    by_cases hc : p.isPrefixOf (c :: rest) = true
    · simp only [findSub, if_pos hc] at h
      cases h
      exact ⟨matchAt_zero.mpr hc, by omega⟩
    · simp only [findSub, if_neg hc, Option.map_eq_some'] at h
      obtain ⟨m, hm, rfl⟩ := h
      obtain ⟨h1, h2⟩ := ih hm
      refine ⟨matchAt_cons.mpr h1, ?_⟩
      intro j hj
      cases j with
      | zero => exact fun hmj => hc (matchAt_zero.mp hmj)
      | succ k => exact fun hmj => h2 k (by omega) (matchAt_cons.mp hmj)

theorem hasSub_findSub {p s : List Char} (h : hasSub p s = true) :
    ∃ n, findSub p s = some n := by
  induction s with
  | nil =>
    simp only [hasSub] at h
    exact ⟨0, by simp [findSub, h]⟩
  | cons c rest ih =>
    by_cases hc : p.isPrefixOf (c :: rest) = true
    · exact ⟨0, findSub_eq_zero hc⟩
    · simp only [hasSub, Bool.or_eq_true] at h
      rcases h with h | h
      · exact absurd h hc
      · obtain ⟨m, hm⟩ := ih h
        exact ⟨m + 1, by simp [findSub, hc, hm]⟩

/-! ### replaceAll / countSub structure lemmas -/

theorem replaceAllFuel_cons (pat rep : List Char) (f : Nat) (c : Char)
    (rest : List Char) :
    replaceAllFuel pat rep (f + 1) (c :: rest) =
      if pat.isPrefixOf (c :: rest) = true then
        rep ++ replaceAllFuel pat rep f (rest.drop (pat.length - 1))
      else c :: replaceAllFuel pat rep f rest := by
  rfl

theorem countSubFuel_cons (pat : List Char) (f : Nat) (c : Char)
    (rest : List Char) :
    countSubFuel pat (f + 1) (c :: rest) =
      if pat.isPrefixOf (c :: rest) = true then
        1 + countSubFuel pat f (rest.drop (pat.length - 1))
      else countSubFuel pat f rest := by
  rfl

theorem replaceAllFuel_congr (pat rep : List Char) :
    ∀ (f g : Nat) (s : List Char), s.length ≤ f → s.length ≤ g →
      replaceAllFuel pat rep f s = replaceAllFuel pat rep g s := by
  intro f
  induction f with
  | zero =>
    intro g s hf _
    simp only [Nat.le_zero, List.length_eq_zero] at hf
    subst hf
    cases g <;> rfl
  | succ f ih =>
    intro g s hf hg
    cases s with
    | nil => cases g <;> rfl
    | cons c rest =>
      cases g with
      | zero => simp at hg
      | succ g =>
        rw [replaceAllFuel_cons, replaceAllFuel_cons]
        by_cases hp : pat.isPrefixOf (c :: rest) = true
        · rw [if_pos hp, if_pos hp]
          have h1 : (rest.drop (pat.length - 1)).length ≤ f := by
            simp at hf ⊢; omega
          have h2 : (rest.drop (pat.length - 1)).length ≤ g := by
            simp at hg ⊢; omega
          rw [ih g _ h1 h2]
        · rw [if_neg hp, if_neg hp]
          have h1 : rest.length ≤ f := by simp at hf; omega
          have h2 : rest.length ≤ g := by simp at hg; omega
          rw [ih g rest h1 h2]

theorem countSubFuel_congr (pat : List Char) :
    ∀ (f g : Nat) (s : List Char), s.length ≤ f → s.length ≤ g →
      countSubFuel pat f s = countSubFuel pat g s := by
  intro f
  induction f with
  | zero =>
    intro g s hf _
    simp only [Nat.le_zero, List.length_eq_zero] at hf
    subst hf
    cases g <;> rfl
  | succ f ih =>
    intro g s hf hg
    cases s with
    | nil => cases g <;> rfl
    | cons c rest =>
      cases g with
      | zero => simp at hg
      | succ g =>
        rw [countSubFuel_cons, countSubFuel_cons]
        by_cases hp : pat.isPrefixOf (c :: rest) = true
        · rw [if_pos hp, if_pos hp]
          have h1 : (rest.drop (pat.length - 1)).length ≤ f := by
            simp at hf ⊢; omega
          have h2 : (rest.drop (pat.length - 1)).length ≤ g := by
            simp at hg ⊢; omega
          rw [ih g _ h1 h2]
        · rw [if_neg hp, if_neg hp]
          have h1 : rest.length ≤ f := by simp at hf; omega
          have h2 : rest.length ≤ g := by simp at hg; omega
          rw [ih g rest h1 h2]

theorem replaceAll_cons_eq (pat rep : List Char) (c : Char) (rest : List Char) :
    replaceAll pat rep (c :: rest) =
      if pat.isPrefixOf (c :: rest) = true then
        rep ++ replaceAllFuel pat rep rest.length (rest.drop (pat.length - 1))
      else c :: replaceAll pat rep rest := by
  unfold replaceAll
  rw [List.length_cons, replaceAllFuel_cons]

theorem countSub_cons_eq (pat : List Char) (c : Char) (rest : List Char) :
    countSub pat (c :: rest) =
      if pat.isPrefixOf (c :: rest) = true then
        1 + countSubFuel pat rest.length (rest.drop (pat.length - 1))
      else countSub pat rest := by
  unfold countSub
  rw [List.length_cons, countSubFuel_cons]

theorem replaceAll_no_match {pat : List Char} (rep : List Char) :
    ∀ (s : List Char), hasSub pat s = false → replaceAll pat rep s = s := by
  intro s
  induction s with
  | nil => intro _; rfl
  | cons c rest ih =>
    intro h
    simp only [hasSub, Bool.or_eq_false_iff] at h
    rw [replaceAll_cons_eq, if_neg (by simp [h.1]), ih h.2]

theorem replaceAll_head_match {pat rep b : List Char} (hp : pat ≠ []) :
    replaceAll pat rep (pat ++ b) = rep ++ replaceAll pat rep b := by
  cases pat with
  | nil => exact absurd rfl hp
  | cons p0 pt =>
    have hipo : (p0 :: pt).isPrefixOf (p0 :: (pt ++ b)) = true :=
      ipo_append_self (p0 :: pt) b
    have hstep : (p0 :: pt) ++ b = p0 :: (pt ++ b) := rfl
    rw [hstep, replaceAll_cons_eq, if_pos hipo]
    have hd : (pt ++ b).drop ((p0 :: pt).length - 1) = b := by
      simp only [List.length_cons, Nat.add_sub_cancel]
      exact List.drop_left pt b
    rw [hd]
    unfold replaceAll
    congr 1
    exact replaceAllFuel_congr _ _ _ _ b (by simp) (le_refl _)

theorem replaceAll_split {pat rep b : List Char} (hp : pat ≠ []) :
    ∀ (a : List Char),
      (∀ i, i < a.length → ¬ matchAt pat (a ++ pat ++ b) i) →
      replaceAll pat rep (a ++ pat ++ b) = a ++ rep ++ replaceAll pat rep b := by
  intro a
  induction a with
  | nil =>
    intro _
    simpa using @replaceAll_head_match pat rep b hp
  | cons c a ih =>
    intro h
    have h0 : ¬ pat.isPrefixOf (c :: (a ++ pat ++ b)) = true := by
      have := h 0 (by simp)
      rw [matchAt_zero] at this
      simpa using this
    have hstep : (c :: a) ++ pat ++ b = c :: (a ++ pat ++ b) := by simp
    rw [hstep, replaceAll_cons_eq, if_neg h0]
    rw [ih (fun i hi => by
      have hh := h (i + 1) (by simpa using Nat.succ_lt_succ hi)
      intro hm
      exact hh (by
        have hcons : matchAt pat (c :: (a ++ pat ++ b)) (i + 1) :=
          matchAt_cons.mpr hm
        simpa using hcons))]
    rfl

theorem countSub_no_match {pat : List Char} :
    ∀ (s : List Char), hasSub pat s = false → countSub pat s = 0 := by
  intro s
  induction s with
  | nil => intro _; rfl
  | cons c rest ih =>
    intro h
    simp only [hasSub, Bool.or_eq_false_iff] at h
    rw [countSub_cons_eq, if_neg (by simp [h.1]), ih h.2]

theorem countSub_head_match {pat b : List Char} (hp : pat ≠ []) :
    countSub pat (pat ++ b) = 1 + countSub pat b := by
  cases pat with
  | nil => exact absurd rfl hp
  | cons p0 pt =>
    have hipo : (p0 :: pt).isPrefixOf (p0 :: (pt ++ b)) = true :=
      ipo_append_self (p0 :: pt) b
    have hstep : (p0 :: pt) ++ b = p0 :: (pt ++ b) := rfl
    rw [hstep, countSub_cons_eq, if_pos hipo]
    have hd : (pt ++ b).drop ((p0 :: pt).length - 1) = b := by
      simp only [List.length_cons, Nat.add_sub_cancel]
      exact List.drop_left pt b
    rw [hd]
    unfold countSub
    congr 1
    exact countSubFuel_congr _ _ _ b (by simp) (le_refl _)

theorem countSub_split {pat b : List Char} (hp : pat ≠ []) :
    ∀ (a : List Char),
      (∀ i, i < a.length → ¬ matchAt pat (a ++ pat ++ b) i) →
      countSub pat (a ++ pat ++ b) = 1 + countSub pat b := by
  intro a
  induction a with
  | nil =>
    intro _
    simpa using countSub_head_match (b := b) hp
  | cons c a ih =>
    intro h
    have h0 : ¬ pat.isPrefixOf (c :: (a ++ pat ++ b)) = true := by
      have := h 0 (by simp)
      rw [matchAt_zero] at this
      simpa using this
    have hstep : (c :: a) ++ pat ++ b = c :: (a ++ pat ++ b) := by simp
    rw [hstep, countSub_cons_eq, if_neg h0]
    exact ih (fun i hi => by
      have hh := h (i + 1) (by simpa using Nat.succ_lt_succ hi)
      intro hm
      exact hh (by
        have hcons : matchAt pat (c :: (a ++ pat ++ b)) (i + 1) :=
          matchAt_cons.mpr hm
        simpa using hcons))

/-! ### splitLines lemmas -/

theorem splitLines_cons (c : Char) (rest : List Char) :
    splitLines (c :: rest) =
      match splitLines rest with
      | [] => [[]]
      | l :: ls => if c = '\n' then [] :: l :: ls else (c :: l) :: ls := by
  rfl

theorem splitLines_cons_eq {rest l : List Char} {ls : List (List Char)}
    (c : Char) (h : splitLines rest = l :: ls) :
    splitLines (c :: rest) =
      if c = '\n' then [] :: l :: ls else (c :: l) :: ls := by
  rw [splitLines_cons, h]

theorem splitLines_ne_nil (s : List Char) : splitLines s ≠ [] := by
  cases s with
  | nil => simp [splitLines]
  | cons c rest =>
    rw [splitLines_cons]
    cases splitLines rest with
    | nil => simp
    | cons l ls =>
      by_cases hc : c = '\n' <;> simp [hc]

theorem splitLines_append (x y : List Char) :
    splitLines (x ++ '\n' :: y) = splitLines x ++ splitLines y := by
  induction x with
  | nil =>
    rw [List.nil_append]
    cases h : splitLines y with
    | nil => exact absurd h (splitLines_ne_nil y)
    | cons l ls =>
      rw [splitLines_cons_eq '\n' h, if_pos rfl]
      simp [splitLines]
  | cons c x ih =>
    cases hx : splitLines x with
    | nil => exact absurd hx (splitLines_ne_nil x)
    | cons l ls =>
      have hxy : splitLines (x ++ '\n' :: y) = l :: (ls ++ splitLines y) := by
        rw [ih, hx]; simp
      rw [List.cons_append, splitLines_cons_eq c hxy, splitLines_cons_eq c hx]
      by_cases hc : c = '\n' <;> simp [hc]

theorem splitLines_no_newline {s : List Char} (h : '\n' ∉ s) :
    splitLines s = [s] := by
  induction s with
  | nil => rfl
  | cons c rest ih =>
    have hc : c ≠ '\n' := fun hh => h (hh ▸ List.mem_cons_self c rest)
    have hrest : '\n' ∉ rest := fun hh => h (List.mem_cons_of_mem c hh)
    rw [splitLines_cons_eq c (ih hrest), if_neg hc]

theorem splitLines_structure :
    ∀ (s : List Char) (m : List Char) (ms : List (List Char)),
      splitLines s = m :: ms →
      (∃ v, s = m ++ v) ∧ ∀ l ∈ ms, ∃ u v, s = u ++ l ++ v := by
  intro s
  induction s with
  | nil =>
    intro m ms h
    simp only [splitLines] at h
    injection h with h1 h2
    subst h1; subst h2
    exact ⟨⟨[], rfl⟩, by simp⟩
  | cons c rest ih =>
    intro m ms h
    cases hr : splitLines rest with
    | nil => exact absurd hr (splitLines_ne_nil rest)
    | cons l ls =>
      rw [splitLines_cons_eq c hr] at h
      obtain ⟨⟨v0, hv0⟩, htail⟩ := ih l ls hr
      by_cases hc : c = '\n'
      · rw [if_pos hc] at h
        injection h with h1 h2
        subst h1
        refine ⟨⟨c :: rest, by simp⟩, ?_⟩
        intro x hx
        rw [← h2] at hx
        cases hx with
        | head =>
          exact ⟨[c], v0, by simp [hv0]⟩
        | tail _ hmem =>
          obtain ⟨u, v, huv⟩ := htail x hmem
          exact ⟨c :: u, v, by simp [huv]⟩
      · rw [if_neg hc] at h
        injection h with h1 h2
        subst h2
        refine ⟨⟨v0, by rw [← h1]; simp [hv0]⟩, ?_⟩
        intro x hx
        obtain ⟨u, v, huv⟩ := htail x hx
        exact ⟨c :: u, v, by simp [huv]⟩

theorem hasSub_of_line {p s l : List Char} (hl : l ∈ splitLines s)
    (h : hasSub p l = true) : hasSub p s = true := by
  cases hsl : splitLines s with
  | nil => exact absurd hsl (splitLines_ne_nil s)
  | cons m ms =>
    obtain ⟨⟨v0, hv0⟩, htail⟩ := splitLines_structure s m ms hsl
    rw [hsl] at hl
    cases hl with
    | head =>
      rw [hv0]
      exact hasSub_append_left h
    | tail _ hmem =>
      obtain ⟨u, v, huv⟩ := htail l hmem
      rw [huv]
      exact hasSub_append_left (hasSub_append_right h)

theorem line_token_free {s l : List Char} (hs : hasSub tok s = false)
    (hl : l ∈ splitLines s) : hasSub tok l = false := by
  by_contra hcon
  rw [Bool.not_eq_false] at hcon
  rw [hasSub_of_line hl hcon] at hs
  cases hs

/-! ### pyStrip lemmas -/

theorem dropWhile_suffix {p : Char → Bool} (s : List Char) :
    ∃ u, s = u ++ s.dropWhile p := by
  induction s with
  | nil => exact ⟨[], rfl⟩
  | cons c rest ih =>
    by_cases hc : p c = true
    · obtain ⟨u, hu⟩ := ih
      refine ⟨c :: u, ?_⟩
      rw [List.dropWhile_cons_of_pos hc]
      simpa using congrArg (c :: ·) hu
    · refine ⟨[], ?_⟩
      rw [List.dropWhile_cons_of_neg (by simpa using hc)]
      rfl

theorem pyStrip_decomp (s : List Char) : ∃ u v, s = u ++ pyStrip s ++ v := by
  obtain ⟨u, hu⟩ := dropWhile_suffix (p := isWs) s
  obtain ⟨w, hw⟩ := dropWhile_suffix (p := isWs) (s.dropWhile isWs).reverse
  refine ⟨u, w.reverse, ?_⟩
  have ht : s.dropWhile isWs = pyStrip s ++ w.reverse := by
    have h2 := congrArg List.reverse hw
    simpa [pyStrip] using h2
  calc s = u ++ s.dropWhile isWs := hu
    _ = u ++ (pyStrip s ++ w.reverse) := by rw [ht]
    _ = u ++ pyStrip s ++ w.reverse := by rw [List.append_assoc]

theorem pyStrip_wrap (x : List Char) :
    pyStrip (' ' :: (x ++ [' '])) = pyStrip x := by
  have hsp : isWs ' ' = true := rfl
  unfold pyStrip
  rw [List.dropWhile_cons_of_pos hsp, List.dropWhile_append]
  by_cases h : (x.dropWhile isWs).isEmpty = true
  · rw [if_pos h]
    rw [List.isEmpty_iff] at h
    rw [h]
    rfl
  · rw [if_neg h]
    rw [List.reverse_append]
    rw [show (([' '] : List Char).reverse) = [' '] from rfl]
    rw [show ([' '] ++ (x.dropWhile isWs).reverse) =
          ' ' :: (x.dropWhile isWs).reverse from rfl]
    rw [List.dropWhile_cons_of_pos hsp]

/-! ### Facts about the concrete token and delimiter -/

theorem arrow_chars : arrow = ['-', '-', '>'] := rfl

theorem tok_len : tok.length = 18 := rfl

theorem arrow_len : arrow.length = 3 := rfl

theorem tok_ne_nil : tok ≠ [] := by decide

theorem arrow_ne_nil : arrow ≠ [] := by decide

theorem tok_no_newline : '\n' ∉ tok := by decide

theorem tok_q_ne_lt : ∀ q, q < 18 → 0 < q → tok[q]? ≠ some '<' := by decide

theorem tok_q_dash : ∀ o, o < 18 → 15 ≤ o → tok[o]? ≠ some '-' := by decide

theorem tok_q_nl : ∀ j, j < 18 → tok[j]? ≠ some '\n' := by decide

theorem tok_zero : tok[0]? = some '<' := rfl

/-! ### Arrow occurrence lemmas -/

theorem hasSub_snoc_arrow {x : List Char} {e : Char} (he : e ≠ '>')
    (hx : hasSub arrow x = false) : hasSub arrow (x ++ [e]) = false := by
  induction x with
  | nil => simp [hasSub, arrow, List.isPrefixOf]
  | cons c x' ih =>
    simp only [hasSub, Bool.or_eq_false_iff] at hx
    obtain ⟨h1, h2⟩ := hx
    have hrec := ih h2
    rw [List.cons_append]
    simp only [hasSub, Bool.or_eq_false_iff]
    refine ⟨?_, hrec⟩
    by_contra hcon
    rw [Bool.not_eq_false] at hcon
    cases x' with
    | nil =>
      obtain ⟨t, ht⟩ := ipo_iff.mp hcon
      have hl := congrArg List.length ht
      simp [arrow] at hl
    | cons d1 x'' =>
      cases x'' with
      | nil =>
        obtain ⟨t, ht⟩ := ipo_iff.mp hcon
        rw [arrow_chars] at ht
        simp only [List.cons_append, List.nil_append, List.cons.injEq] at ht
        exact he ht.2.2.1
      | cons d2 x''' =>
        have hcon' : arrow.isPrefixOf ((c :: d1 :: d2 :: x''') ++ [e]) = true := by
          simpa using hcon
        have hin : arrow.isPrefixOf (c :: d1 :: d2 :: x''') = true :=
          ipo_of_append hcon'
            (by rw [arrow_len]; simp only [List.length_cons]; omega)
        rw [hin] at h1
        cases h1

theorem arrow_first_bound {x t : List Char} (hx : hasSub arrow x = false) :
    ∀ j, matchAt arrow (x ++ arrow ++ t) j → x.length ≤ j := by
  intro j hm
  by_contra hcon
  push_neg at hcon
  rcases (by omega : j + 3 ≤ x.length ∨ j + 1 = x.length ∨ j + 2 = x.length)
    with h3 | h1 | h2
  · have hm' : matchAt arrow (x ++ (arrow ++ t)) j := by
      rw [← List.append_assoc]; exact hm
    have hw := matchAt_within hm' (by rw [arrow_len]; omega)
    exact absurd (matchAt_hasSub hw) (by simp [hx])
  · have hg := matchAt_getq hm (j := 2) (by rw [arrow_len]; omega)
    have hv : (x ++ arrow ++ t)[j + 2]? = some '-' := by
      rw [List.append_assoc,
        List.getElem?_append_right (by omega : x.length ≤ j + 2)]
      have hix : j + 2 - x.length = 1 := by omega
      rw [hix, List.getElem?_append_left (by rw [arrow_len]; omega)]
      rfl
    rw [hv] at hg
    have harr2 : arrow[2]? = some '>' := rfl
    rw [harr2] at hg
    exact absurd hg (by decide)
  · have hg := matchAt_getq hm (j := 2) (by rw [arrow_len]; omega)
    have hv : (x ++ arrow ++ t)[j + 2]? = some '-' := by
      rw [List.append_assoc,
        List.getElem?_append_right (by omega : x.length ≤ j + 2)]
      have hix : j + 2 - x.length = 0 := by omega
      rw [hix, List.getElem?_append_left (by rw [arrow_len]; omega)]
      rfl
    rw [hv] at hg
    have harr2 : arrow[2]? = some '>' := rfl
    rw [harr2] at hg
    exact absurd hg (by decide)

theorem arrow_find {x t : List Char} (hx : hasSub arrow x = false) :
    findSub arrow (x ++ arrow ++ t) = some x.length := by
  have hocc : matchAt arrow (x ++ arrow ++ t) x.length := by
    unfold matchAt
    rw [List.append_assoc, List.drop_left]
    exact ipo_append_self arrow t
  obtain ⟨n, hn⟩ := hasSub_findSub (matchAt_hasSub hocc)
  obtain ⟨hmn, hmin⟩ := findSub_first hn
  have hge : x.length ≤ n := arrow_first_bound hx n hmn
  have hlt : ¬ x.length < n := fun hlt => hmin x.length hlt hocc
  have hxn : n = x.length := by omega
  rw [hn, hxn]

/-! ### Extraction lemmas -/

theorem extract_marker_line {iv : List Char} (hiv : hasSub arrow iv = false)
    (rest : List (List Char)) :
    extractLines ((tok ++ iv ++ arrow) :: rest) =
      (extractLines rest).map (pyStrip iv :: ·) := by
  have hipo : tok.isPrefixOf (tok ++ (iv ++ arrow)) = true :=
    ipo_append_self tok (iv ++ arrow)
  have htok : hasSub tok (tok ++ (iv ++ arrow)) = true := hasSub_of_ipo hipo
  have hfind : findSub tok (tok ++ (iv ++ arrow)) = some 0 :=
    findSub_eq_zero hipo
  have hfa : findSub arrow (iv ++ arrow) = some iv.length := by
    have h := arrow_find (x := iv) (t := []) hiv
    rwa [List.append_nil] at h
  rw [List.append_assoc]
  simp only [extractLines, if_pos htok, hfind, Option.getD_some, Nat.zero_add,
    List.drop_left, hfa, List.take_left]
  cases extractLines rest <;> rfl

theorem extractLines_append :
    ∀ (P Q : List (List Char)),
      extractLines (P ++ Q) =
        match extractLines P with
        | none => none
        | some a => (extractLines Q).map (a ++ ·) := by
  intro P Q
  induction P with
  | nil =>
    simp only [List.nil_append, extractLines]
    cases extractLines Q <;> rfl
  | cons line P ih =>
    have hstep : (line :: P) ++ Q = line :: (P ++ Q) := rfl
    rw [hstep]
    by_cases h : hasSub tok line = true
    · simp only [extractLines, if_pos h]
      cases hf : findSub arrow
          (line.drop ((findSub tok line).getD 0 + tok.length)) with
      | none => rfl
      | some j =>
        rw [ih]
        cases hP : extractLines P with
        | none => rfl
        | some a =>
          cases hQ : extractLines Q with
          | none => rfl
          | some b => rfl
    · simp only [extractLines, if_neg h]
      exact ih

theorem extractLines_token_free :
    ∀ (P : List (List Char)), (∀ l ∈ P, hasSub tok l = false) →
      extractLines P = some [] := by
  intro P
  induction P with
  | nil => intro _; rfl
  | cons line P ih =>
    intro h
    have h1 : hasSub tok line = false := h line (List.mem_cons_self _ _)
    simp only [extractLines]
    rw [if_neg (by simp [h1])]
    exact ih (fun l hl => h l (List.mem_cons_of_mem _ hl))

/-! ### Boundary-skip lemma -/

theorem no_early {p A rest : List Char} {i : Nat}
    (hA : hasSub p A = false)
    (hnl : A = [] ∨ ∃ A2, A = A2 ++ ['\n'])
    (hp : '\n' ∉ p)
    (hm : matchAt p (A ++ rest) i) :
    A.length ≤ i ∧ matchAt p rest (i - A.length) := by
  rcases hnl with rfl | ⟨A2, rfl⟩
  · simpa using hm
  · by_cases hge : (A2 ++ ['\n']).length ≤ i
    · refine ⟨hge, ?_⟩
      unfold matchAt at hm ⊢
      rwa [drop_append_ge rest (A2 ++ ['\n']) i hge] at hm
    · exfalso
      push_neg at hge
      by_cases hin : i + p.length ≤ (A2 ++ ['\n']).length
      · have hw := matchAt_within hm hin
        exact absurd (matchAt_hasSub hw) (by simp [hA])
      · push_neg at hin
        have hj : (A2 ++ ['\n']).length - 1 - i < p.length := by
          simp only [List.length_append, List.length_cons, List.length_nil]
            at hge hin ⊢
          omega
        have hg := matchAt_getq hm hj
        have hidx : i + ((A2 ++ ['\n']).length - 1 - i) =
            (A2 ++ ['\n']).length - 1 := by
          simp only [List.length_append, List.length_cons, List.length_nil]
            at hge ⊢
          omega
        rw [hidx] at hg
        have hval : ((A2 ++ ['\n']) ++ rest)[(A2 ++ ['\n']).length - 1]?
            = some '\n' := by
          rw [List.getElem?_append_left (by simp)]
          have he : (A2 ++ ['\n']).length - 1 = A2.length := by simp
          rw [he, List.getElem?_append_right (le_refl _)]
          simp
        rw [hval] at hg
        exact hp (List.getElem?_mem hg.symm)

/-! ### htmlEscape lemmas -/

theorem single_ipo (c x : Char) (rest : List Char) :
    ([c].isPrefixOf (x :: rest)) = (c == x) := by
  simp [List.isPrefixOf]

theorem replaceAll_single_char (c : Char) (rep : List Char) :
    ∀ (s : List Char),
      replaceAll [c] rep s = s.flatMap (fun x => if x = c then rep else [x]) := by
  intro s
  induction s with
  | nil => rfl
  | cons x rest ih =>
    rw [replaceAll_cons_eq]
    by_cases hx : x = c
    · rw [if_pos (by rw [single_ipo]; simp [hx])]
      subst hx
      have hdrop : rest.drop ([x].length - 1) = rest := by simp
      rw [hdrop]
      have hfuel : replaceAllFuel [x] rep rest.length rest = replaceAll [x] rep rest := rfl
      rw [hfuel, ih]
      simp
    · rw [if_neg (by rw [single_ipo]; simp [Ne.symm hx]), ih]
      simp [hx]

theorem htmlEscape_flatMap (s : List Char) :
    htmlEscape s = s.flatMap escChar := by
  unfold htmlEscape
  rw [replaceAll_single_char, replaceAll_single_char, replaceAll_single_char,
    replaceAll_single_char, replaceAll_single_char]
  rw [List.flatMap_assoc, List.flatMap_assoc, List.flatMap_assoc,
    List.flatMap_assoc]
  apply List.flatMap_congr
  intro a _
  by_cases h1 : a = '&'
  · subst h1; rfl
  by_cases h2 : a = '<'
  · subst h2; rfl
  by_cases h3 : a = '>'
  · subst h3; rfl
  by_cases h4 : a = '"'
  · subst h4; rfl
  by_cases h5 : a = '\''
  · subst h5; rfl
  simp only [if_neg h1, List.flatMap_singleton, if_neg h2, if_neg h3,
    if_neg h4, if_neg h5, escChar]

/-- Characters produced by `escChar` never include `<` (the source of a `<`
would have been escaped), and newlines only come from newlines. -/
theorem escChar_no_lt (a : Char) : '<' ∉ escChar a := by
  unfold escChar
  by_cases h1 : a = '&'
  · simp [h1]
  by_cases h2 : a = '<'
  · simp [h1, h2]
  by_cases h3 : a = '>'
  · simp [h1, h2, h3]
  by_cases h4 : a = '"'
  · simp [h1, h2, h3, h4]
  by_cases h5 : a = '\''
  · simp [h1, h2, h3, h4, h5]
  simp [h1, h2, h3, h4, h5]
  exact fun hh => h2 hh.symm

theorem escChar_nl {a : Char} (h : '\n' ∈ escChar a) : a = '\n' := by
  unfold escChar at h
  by_cases h1 : a = '&'
  · rw [if_pos h1] at h; exact absurd h (by decide)
  rw [if_neg h1] at h
  by_cases h2 : a = '<'
  · rw [if_pos h2] at h; exact absurd h (by decide)
  rw [if_neg h2] at h
  by_cases h3 : a = '>'
  · rw [if_pos h3] at h; exact absurd h (by decide)
  rw [if_neg h3] at h
  by_cases h4 : a = '"'
  · rw [if_pos h4] at h; exact absurd h (by decide)
  rw [if_neg h4] at h
  by_cases h5 : a = '\''
  · rw [if_pos h5] at h; exact absurd h (by decide)
  rw [if_neg h5] at h
  simp at h
  exact h.symm

theorem lt_not_mem_htmlEscape (s : List Char) : '<' ∉ htmlEscape s := by
  rw [htmlEscape_flatMap]
  intro h
  rw [List.mem_flatMap] at h
  obtain ⟨a, _, ha⟩ := h
  exact escChar_no_lt a ha

theorem nl_not_mem_htmlEscape {s : List Char} (hs : '\n' ∉ s) :
    '\n' ∉ htmlEscape s := by
  rw [htmlEscape_flatMap]
  intro h
  rw [List.mem_flatMap] at h
  obtain ⟨a, hmem, ha⟩ := h
  exact hs (escChar_nl ha ▸ hmem)

/-! ### markerStr and imgTag structure -/

theorem markerStr_decomp (d : List Char) :
    markerStr d = tok ++ (' ' :: (d ++ [' '])) ++ arrow := by
  have h : (' ' :: (d ++ [' '])) ++ arrow = ' ' :: (d ++ ([' '] ++ arrow)) := by
    simp
  rw [List.append_assoc tok, h]
  show ("<!-- illustration: ".data ++ d) ++ " -->".data
      = tok ++ (' ' :: (d ++ ([' '] ++ arrow)))
  rw [List.append_assoc]
  rfl

theorem tok_ipo_markerStr (d : List Char) :
    tok.isPrefixOf (markerStr d) = true := by
  rw [markerStr_decomp, List.append_assoc]
  exact ipo_append_self tok _

theorem markerStr_ne_nil (d : List Char) : markerStr d ≠ [] := by
  intro h
  have := congrArg List.length h
  simp [markerStr] at this

theorem nl_not_mem_markerStr {d : List Char} (hd : '\n' ∉ d) :
    '\n' ∉ markerStr d := by
  unfold markerStr
  intro h
  rcases List.mem_append.mp h with h1 | h1
  · rcases List.mem_append.mp h1 with h2 | h2
    · exact absurd h2 (by decide)
    · exact hd h2
  · exact absurd h1 (by decide)

theorem arrow_free_wrap {d : List Char} (hd : hasSub arrow d = false) :
    hasSub arrow (' ' :: (d ++ [' '])) = false := by
  have h1 : hasSub arrow (d ++ [' ']) = false :=
    hasSub_snoc_arrow (by decide) hd
  simp only [hasSub, Bool.or_eq_false_iff]
  refine ⟨?_, h1⟩
  by_contra hcon
  rw [Bool.not_eq_false] at hcon
  obtain ⟨t, ht⟩ := ipo_iff.mp hcon
  rw [arrow_chars] at ht
  simp at ht

theorem imgTag_decomp (src alt : List Char) :
    imgTag src alt =
      imgL1 ++ (src ++ (imgL2 ++ (htmlEscape alt ++ imgL3))) := by
  simp [imgTag, imgL1, imgL2, imgL3, List.append_assoc]

theorem imgL1_len : imgL1.length = 13 := rfl

theorem imgL2_len : imgL2.length = 7 := rfl

theorem imgL3_len : imgL3.length = 8 := rfl

theorem imgL1_lt : ∀ k, k < 13 → imgL1[k]? = some '<' → k = 0 ∨ k = 3 := by
  decide

theorem imgL2_lt : ∀ k, k < 7 → imgL2[k]? ≠ some '<' := by decide

theorem imgL3_lt : ∀ k, k < 8 → imgL3[k]? = some '<' → k = 4 := by decide

theorem tok_one : tok[1]? = some '!' := rfl

theorem nl_not_mem_imgTag {src alt : List Char} (h1 : '\n' ∉ src)
    (h2 : '\n' ∉ alt) : '\n' ∉ imgTag src alt := by
  rw [imgTag_decomp]
  intro h
  rcases List.mem_append.mp h with hh | hh
  · exact absurd hh (by decide)
  rcases List.mem_append.mp hh with hh2 | hh2
  · exact h1 hh2
  rcases List.mem_append.mp hh2 with hh3 | hh3
  · exact absurd hh3 (by decide)
  rcases List.mem_append.mp hh3 with hh4 | hh4
  · exact nl_not_mem_htmlEscape h2 hh4
  · exact absurd hh4 (by decide)

theorem tok_not_in_imgTag {src alt : List Char} (hsrc : '<' ∉ src) :
    hasSub tok (imgTag src alt) = false := by
  by_contra hcon
  rw [Bool.not_eq_false] at hcon
  obtain ⟨o, hm, _⟩ := hasSub_to_matchAt hcon
  have h0 : (imgTag src alt)[o]? = some '<' := by
    have h := matchAt_getq hm (j := 0) (by rw [tok_len]; omega)
    rw [Nat.add_zero] at h
    rw [h, tok_zero]
  have h1 : (imgTag src alt)[o + 1]? = some '!' := by
    have h := matchAt_getq hm (j := 1) (by rw [tok_len]; omega)
    rw [h, tok_one]
  rw [imgTag_decomp] at h0 h1
  by_cases ho1 : o < 13
  · rw [List.getElem?_append_left (by rw [imgL1_len]; omega)] at h0
    rcases imgL1_lt o ho1 h0 with rfl | rfl
    · rw [List.getElem?_append_left (by rw [imgL1_len]; omega)] at h1
      exact absurd h1 (by decide)
    · rw [List.getElem?_append_left (by rw [imgL1_len]; omega)] at h1
      exact absurd h1 (by decide)
  · push_neg at ho1
    rw [List.getElem?_append_right (by rw [imgL1_len]; omega)] at h0
    rw [imgL1_len] at h0
    by_cases ho2 : o - 13 < src.length
    · rw [List.getElem?_append_left ho2] at h0
      exact hsrc (List.getElem?_mem h0)
    · push_neg at ho2
      rw [List.getElem?_append_right ho2] at h0
      by_cases ho3 : o - 13 - src.length < 7
      · rw [List.getElem?_append_left (by rw [imgL2_len]; omega)] at h0
        exact imgL2_lt _ ho3 h0
      · push_neg at ho3
        rw [List.getElem?_append_right (by rw [imgL2_len]; omega)] at h0
        rw [imgL2_len] at h0
        by_cases ho4 : o - 13 - src.length - 7 < (htmlEscape alt).length
        · rw [List.getElem?_append_left ho4] at h0
          exact lt_not_mem_htmlEscape alt (List.getElem?_mem h0)
        · push_neg at ho4
          rw [List.getElem?_append_right ho4] at h0
          have hm8 : o - 13 - src.length - 7 - (htmlEscape alt).length < 8 := by
            by_contra hge
            push_neg at hge
            rw [List.getElem?_len_le (by rw [imgL3_len]; omega)] at h0
            cases h0
          have h4 := imgL3_lt _ hm8 h0
          have ho : o = 13 + src.length + 7 + (htmlEscape alt).length + 4 := by
            omega
          rw [List.getElem?_append_right (by rw [imgL1_len]; omega),
            imgL1_len] at h1
          rw [List.getElem?_append_right (by omega)] at h1
          rw [List.getElem?_append_right (by rw [imgL2_len]; omega),
            imgL2_len] at h1
          rw [List.getElem?_append_right (by omega)] at h1
          have hidx : o + 1 - 13 - src.length - 7 - (htmlEscape alt).length
              = 5 := by omega
          rw [hidx] at h1
          exact absurd h1 (by decide)

/-! ### Occurrence analysis for non-canonical markers -/

theorem ipo_cancel {x u v : List Char}
    (h : (x ++ u).isPrefixOf (x ++ v) = true) : u.isPrefixOf v = true := by
  obtain ⟨t, ht⟩ := ipo_iff.mp h
  rw [List.append_assoc] at ht
  exact ipo_iff.mpr ⟨t, List.append_cancel_left ht⟩

theorem matchAt_extend {p u t : List Char} {j : Nat} (hj : j ≤ u.length)
    (h : matchAt p u j) : matchAt p (u ++ t) j := by
  unfold matchAt at h ⊢
  rw [drop_append_le t u j hj]
  exact ipo_append_right h

theorem matchAt_restrict {p u v : List Char} {j : Nat}
    (huv : u.isPrefixOf v = true) (h : matchAt p v j)
    (hb : j + p.length ≤ u.length) : matchAt p u j := by
  obtain ⟨t, rfl⟩ := ipo_iff.mp huv
  exact matchAt_within h hb

theorem ipo_take_eq {u v : List Char} (h : u.isPrefixOf v = true) {n : Nat}
    (hn : n ≤ u.length) : v.take n = u.take n := by
  obtain ⟨t, rfl⟩ := ipo_iff.mp h
  exact take_append_le t u n hn

theorem arrow_lt : ∀ r, r < 3 → arrow[r]? ≠ some '<' := by decide

theorem no_marker_of_no_tok {s d : List Char} (h : hasSub tok s = false) :
    hasSub (markerStr d) s = false := by
  cases hh : hasSub (markerStr d) s with
  | false => rfl
  | true =>
    rw [hasSub_mono_pat (tok_ipo_markerStr d) hh] at h
    cases h

theorem civ_eq_of_ipo {cv iv B : List Char} (hciv : hasSub arrow cv = false)
    (hiv : hasSub arrow iv = false)
    (h : (cv ++ arrow).isPrefixOf (iv ++ arrow ++ B) = true) : cv = iv := by
  have m1u : matchAt arrow (cv ++ arrow) cv.length := by
    unfold matchAt
    rw [List.drop_left]
    exact ipo_refl arrow
  have m1 : matchAt arrow (iv ++ arrow ++ B) cv.length := by
    obtain ⟨t, ht⟩ := ipo_iff.mp h
    rw [ht]
    exact matchAt_extend (by simp) m1u
  have hle1 : iv.length ≤ cv.length := arrow_first_bound hiv _ m1
  have m2 : matchAt arrow (iv ++ arrow ++ B) iv.length := by
    unfold matchAt
    rw [List.append_assoc, List.drop_left]
    exact ipo_append_self arrow B
  have m2' : matchAt arrow (cv ++ arrow) iv.length :=
    matchAt_restrict h m2
      (by simp only [List.length_append, arrow_len]; omega)
  have hle2 : cv.length ≤ iv.length := by
    refine arrow_first_bound (t := ([] : List Char)) hciv iv.length ?_
    rwa [List.append_nil]
  have heq : cv.length = iv.length := by omega
  have h1 : (iv ++ arrow ++ B).take cv.length = cv := by
    rw [ipo_take_eq h (by simp), take_append_le arrow cv _ (le_refl _),
      List.take_length]
  have h2 : (iv ++ arrow ++ B).take cv.length = iv := by
    rw [heq, List.append_assoc, take_append_le _ iv _ (le_refl _),
      List.take_length]
  rw [h1] at h2
  exact h2

theorem tok_not_in_iv_arrow {iv B : List Char}
    (hivtok : hasSub tok iv = false) (htokB : hasSub tok B = false)
    (hB : B = [] ∨ ∃ B2, B = '\n' :: B2) (r : Nat)
    (hm : matchAt tok (iv ++ (arrow ++ B)) r) : False := by
  by_cases hr1 : r + 18 ≤ iv.length
  · have := matchAt_within hm (by rw [tok_len]; omega)
    exact absurd (matchAt_hasSub this) (by simp [hivtok])
  · push_neg at hr1
    by_cases hr2 : r < iv.length
    · -- the occurrence covers the first character of the delimiter
      have ho1 : iv.length - r < 18 := by omega
      have ho0 : 1 ≤ iv.length - r := by omega
      have hg := matchAt_getq hm (j := iv.length - r) (by rw [tok_len]; omega)
      have hi1 : r + (iv.length - r) = iv.length := by omega
      rw [hi1, List.getElem?_append_right (le_refl _), Nat.sub_self] at hg
      have hg0 : tok[iv.length - r]? = some '-' := by
        rw [← hg, List.getElem?_append_left (by rw [arrow_len]; omega)]
        rfl
      by_cases ho15 : 15 ≤ iv.length - r
      · exact tok_q_dash _ ho1 ho15 hg0
      · push_neg at ho15
        rcases hB with rfl | ⟨B2, rfl⟩
        · have hl := matchAt_length tok_ne_nil hm
          rw [tok_len] at hl
          simp [arrow_len] at hl
          omega
        · have hg3 := matchAt_getq hm (j := iv.length - r + 3)
            (by rw [tok_len]; omega)
          have hi3 : r + (iv.length - r + 3) = iv.length + 3 := by omega
          rw [hi3, List.getElem?_append_right (by omega)] at hg3
          have hi4 : iv.length + 3 - iv.length = 3 := by omega
          rw [hi4, List.getElem?_append_right (le_of_eq arrow_len)] at hg3
          rw [arrow_len] at hg3
          simp at hg3
          exact tok_q_nl _ (by omega) hg3.symm
    · push_neg at hr2
      have hm2 : matchAt tok (arrow ++ B) (r - iv.length) := matchAt_ge hm hr2
      by_cases hr3 : r - iv.length < 3
      · have hg := matchAt_getq hm2 (j := 0) (by rw [tok_len]; omega)
        rw [Nat.add_zero, tok_zero,
          List.getElem?_append_left (by rw [arrow_len]; omega)] at hg
        exact arrow_lt _ hr3 hg
      · push_neg at hr3
        have hm3 : matchAt tok B (r - iv.length - 3) := by
          have := matchAt_ge hm2 (by rw [arrow_len]; omega)
          rwa [arrow_len] at this
        exact absurd (matchAt_hasSub hm3) (by simp [htokB])

theorem variant_no_canonical {A iv B d : List Char}
    (htokA : hasSub tok A = false) (htokB : hasSub tok B = false)
    (hivtok : hasSub tok iv = false) (hivarrow : hasSub arrow iv = false)
    (hdarrow : hasSub arrow d = false) (hdnl : '\n' ∉ d)
    (hA : A = [] ∨ ∃ A2, A = A2 ++ ['\n'])
    (hB : B = [] ∨ ∃ B2, B = '\n' :: B2)
    (hvar : iv ≠ ' ' :: (d ++ [' '])) :
    hasSub (markerStr d) (A ++ (tok ++ iv ++ arrow) ++ B) = false := by
  by_contra hcon
  rw [Bool.not_eq_false] at hcon
  obtain ⟨i, hm, _⟩ := hasSub_to_matchAt hcon
  have hmsA : hasSub (markerStr d) A = false := no_marker_of_no_tok htokA
  have hnm : '\n' ∉ markerStr d := nl_not_mem_markerStr hdnl
  have hm' : matchAt (markerStr d) ((tok ++ iv ++ arrow) ++ B) (i - A.length) := by
    have hassoc : A ++ (tok ++ iv ++ arrow) ++ B
        = A ++ ((tok ++ iv ++ arrow) ++ B) := by
      rw [List.append_assoc]
    rw [hassoc] at hm
    exact (no_early hmsA hA hnm hm).2
  set q := i - A.length with hq
  have hmt : matchAt tok ((tok ++ iv ++ arrow) ++ B) q :=
    matchAt_mono_pat (tok_ipo_markerStr d) hm'
  have hshape : (tok ++ iv ++ arrow) ++ B = tok ++ (iv ++ (arrow ++ B)) := by
    simp [List.append_assoc]
  rcases Nat.lt_or_ge q 18 with hq18 | hq18
  · rcases Nat.eq_zero_or_pos q with hq0 | hqpos
    · -- canonical marker begins exactly at the variant marker: forces iv = civ
      have hipo : (markerStr d).isPrefixOf ((tok ++ iv ++ arrow) ++ B) = true := by
        have hmz := hm'
        rw [hq0] at hmz
        unfold matchAt at hmz
        rwa [List.drop_zero] at hmz
      rw [markerStr_decomp, hshape] at hipo
      have hipo2 : ((' ' :: (d ++ [' '])) ++ arrow).isPrefixOf
          (iv ++ (arrow ++ B)) = true := by
        apply ipo_cancel (x := tok)
        rwa [List.append_assoc] at hipo
      have hciv : hasSub arrow (' ' :: (d ++ [' '])) = false :=
        arrow_free_wrap hdarrow
      have := civ_eq_of_ipo hciv hivarrow
        (by rwa [List.append_assoc iv arrow B])
      exact hvar this.symm
    · have hgq := matchAt_getq hmt (j := 0) (by rw [tok_len]; omega)
      rw [Nat.add_zero, tok_zero, hshape,
        List.getElem?_append_left (by rw [tok_len]; omega)] at hgq
      exact tok_q_ne_lt q hq18 hqpos hgq
  · rw [hshape] at hmt
    have hmr : matchAt tok (iv ++ (arrow ++ B)) (q - tok.length) :=
      matchAt_ge hmt (by rw [tok_len]; omega)
    exact tok_not_in_iv_arrow hivtok htokB hB _ hmr

/-! ### Extraction over a document containing one marker line -/

theorem hasSub_false_of_append_left {p x y : List Char}
    (h : hasSub p (x ++ y) = false) : hasSub p x = false := by
  cases hh : hasSub p x with
  | false => rfl
  | true => rw [hasSub_append_left hh] at h; cases h

theorem hasSub_false_of_append_right {p x y : List Char}
    (h : hasSub p (x ++ y) = false) : hasSub p y = false := by
  cases hh : hasSub p y with
  | false => rfl
  | true => rw [hasSub_append_right hh] at h; cases h

theorem hasSub_false_cons {p : List Char} {c : Char} {rest : List Char}
    (h : hasSub p (c :: rest) = false) : hasSub p rest = false := by
  simp only [hasSub, Bool.or_eq_false_iff] at h
  exact h.2

theorem nl_not_mem_mid {iv : List Char} (hivnl : '\n' ∉ iv) :
    '\n' ∉ tok ++ iv ++ arrow := by
  intro h
  rcases List.mem_append.mp h with h1 | h1
  · rcases List.mem_append.mp h1 with h2 | h2
    · exact absurd h2 (by decide)
    · exact hivnl h2
  · exact absurd h1 (by decide)

theorem extract_sandwich {A iv B : List Char}
    (htokA : hasSub tok A = false) (htokB : hasSub tok B = false)
    (hivarrow : hasSub arrow iv = false) (hivnl : '\n' ∉ iv)
    (hA : A = [] ∨ ∃ A2, A = A2 ++ ['\n'])
    (hB : B = [] ∨ ∃ B2, B = '\n' :: B2) :
    extract_illustrations (A ++ (tok ++ iv ++ arrow) ++ B)
      = some [pyStrip iv] := by
  have hMnl : '\n' ∉ tok ++ iv ++ arrow := nl_not_mem_mid hivnl
  have hM : splitLines (tok ++ iv ++ arrow) = [tok ++ iv ++ arrow] :=
    splitLines_no_newline hMnl
  have hone : ∀ rest, extractLines ((tok ++ iv ++ arrow) :: rest)
      = (extractLines rest).map (pyStrip iv :: ·) :=
    fun rest => extract_marker_line hivarrow rest
  rcases hA with rfl | ⟨A2, rfl⟩ <;> rcases hB with rfl | ⟨B2, rfl⟩
  · -- no prefix, no suffix
    unfold extract_illustrations
    rw [List.nil_append, List.append_nil, hM, hone]
    rfl
  · -- no prefix, newline-led suffix
    have htokB2 : hasSub tok B2 = false := hasSub_false_cons htokB
    unfold extract_illustrations
    rw [List.nil_append, splitLines_append, hM]
    have hB2lines : extractLines (splitLines B2) = some [] :=
      extractLines_token_free _ (fun l hl => line_token_free htokB2 hl)
    rw [show ([tok ++ iv ++ arrow] ++ splitLines B2 :
        List (List Char)) = (tok ++ iv ++ arrow) :: splitLines B2 from rfl]
    rw [hone, hB2lines]
    rfl
  · -- newline-ended prefix, no suffix
    have htokA2 : hasSub tok A2 = false := hasSub_false_of_append_left htokA
    unfold extract_illustrations
    rw [List.append_nil,
      show A2 ++ ['\n'] ++ (tok ++ iv ++ arrow)
        = A2 ++ '\n' :: (tok ++ iv ++ arrow) by simp,
      splitLines_append, hM]
    rw [extractLines_append]
    have hA2lines : extractLines (splitLines A2) = some [] :=
      extractLines_token_free _ (fun l hl => line_token_free htokA2 hl)
    rw [hA2lines, hone]
    rfl
  · -- both present
    have htokA2 : hasSub tok A2 = false := hasSub_false_of_append_left htokA
    have htokB2 : hasSub tok B2 = false := hasSub_false_cons htokB
    unfold extract_illustrations
    rw [show A2 ++ ['\n'] ++ (tok ++ iv ++ arrow) ++ ('\n' :: B2)
        = A2 ++ '\n' :: ((tok ++ iv ++ arrow) ++ '\n' :: B2) by simp,
      splitLines_append, splitLines_append, hM]
    rw [extractLines_append]
    have hA2lines : extractLines (splitLines A2) = some [] :=
      extractLines_token_free _ (fun l hl => line_token_free htokA2 hl)
    have hB2lines : extractLines (splitLines B2) = some [] :=
      extractLines_token_free _ (fun l hl => line_token_free htokB2 hl)
    rw [hA2lines,
      show ([tok ++ iv ++ arrow] ++ splitLines B2 : List (List Char))
        = (tok ++ iv ++ arrow) :: splitLines B2 from rfl,
      hone, hB2lines]
    rfl

/-! ### Single-occurrence replacement lemmas -/

theorem self_match_zero {p B : List Char} (hp : p ≠ []) (hnl : '\n' ∉ p)
    (hpB : hasSub p B = false) (hB : B = [] ∨ ∃ B2, B = '\n' :: B2)
    {q : Nat} (hm : matchAt p (p ++ B) q) : q = 0 := by
  by_contra hq
  have hqpos : 0 < q := Nat.pos_of_ne_zero hq
  by_cases h2 : p.length ≤ q
  · exact absurd (matchAt_hasSub (matchAt_ge hm h2)) (by simp [hpB])
  · push_neg at h2
    rcases hB with rfl | ⟨B2, rfl⟩
    · have := matchAt_length hp hm
      simp at this
      omega
    · have hj : p.length - q < p.length := by omega
      have hg := matchAt_getq hm hj
      have hi : q + (p.length - q) = p.length := by omega
      rw [hi, List.getElem?_append_right (le_refl _), Nat.sub_self] at hg
      simp at hg
      exact hnl (List.getElem?_mem hg.symm)

theorem sandwich_match_unique {p A B : List Char} (hp : p ≠ [])
    (hnl : '\n' ∉ p) (hpA : hasSub p A = false) (hpB : hasSub p B = false)
    (hA : A = [] ∨ ∃ A2, A = A2 ++ ['\n'])
    (hB : B = [] ∨ ∃ B2, B = '\n' :: B2) :
    ∀ i, matchAt p (A ++ p ++ B) i → i = A.length := by
  intro i hm
  rw [List.append_assoc] at hm
  obtain ⟨hge, hm'⟩ := no_early hpA hA hnl hm
  have h0 := self_match_zero hp hnl hpB hB hm'
  omega

theorem sandwich_replace {p rep A B : List Char} (hp : p ≠ [])
    (hnl : '\n' ∉ p) (hpA : hasSub p A = false) (hpB : hasSub p B = false)
    (hA : A = [] ∨ ∃ A2, A = A2 ++ ['\n'])
    (hB : B = [] ∨ ∃ B2, B = '\n' :: B2) :
    replaceAll p rep (A ++ p ++ B) = A ++ rep ++ B := by
  rw [replaceAll_split hp A (fun i hi hm => by
    have := sandwich_match_unique hp hnl hpA hpB hA hB i hm
    omega)]
  rw [replaceAll_no_match rep B hpB]

theorem sandwich_count {p A B : List Char} (hp : p ≠ [])
    (hnl : '\n' ∉ p) (hpA : hasSub p A = false) (hpB : hasSub p B = false)
    (hA : A = [] ∨ ∃ A2, A = A2 ++ ['\n'])
    (hB : B = [] ∨ ∃ B2, B = '\n' :: B2) :
    countSub p (A ++ p ++ B) = 1 := by
  rw [countSub_split hp A (fun i hi hm => by
    have := sandwich_match_unique hp hnl hpA hpB hA hB i hm
    omega)]
  rw [countSub_no_match B hpB]

theorem hasSub_sandwich_false {p mid A B : List Char} (hp : p ≠ [])
    (hnl : '\n' ∉ p) (hpA : hasSub p A = false) (hpmid : hasSub p mid = false)
    (hpB : hasSub p B = false)
    (hA : A = [] ∨ ∃ A2, A = A2 ++ ['\n'])
    (hB : B = [] ∨ ∃ B2, B = '\n' :: B2) :
    hasSub p (A ++ mid ++ B) = false := by
  by_contra hcon
  rw [Bool.not_eq_false] at hcon
  obtain ⟨i, hm, _⟩ := hasSub_to_matchAt hcon
  rw [List.append_assoc] at hm
  obtain ⟨hge, hm'⟩ := no_early hpA hA hnl hm
  by_cases h1 : i - A.length + p.length ≤ mid.length
  · exact absurd (matchAt_hasSub (matchAt_within hm' h1)) (by simp [hpmid])
  · push_neg at h1
    by_cases h2 : mid.length ≤ i - A.length
    · exact absurd (matchAt_hasSub (matchAt_ge hm' h2)) (by simp [hpB])
    · push_neg at h2
      rcases hB with rfl | ⟨B2, rfl⟩
      · have := matchAt_length hp hm'
        simp at this
        omega
      · have hj : mid.length - (i - A.length) < p.length := by omega
        have hg := matchAt_getq hm' hj
        have hi : i - A.length + (mid.length - (i - A.length))
            = mid.length := by omega
        rw [hi, List.getElem?_append_right (le_refl _), Nat.sub_self] at hg
        simp at hg
        exact hnl (List.getElem?_mem hg.symm)

/-! ### pyStrip monotonicity -/

theorem hasSub_pyStrip {p s : List Char} (h : hasSub p s = false) :
    hasSub p (pyStrip s) = false := by
  obtain ⟨u, v, huv⟩ := pyStrip_decomp s
  cases hh : hasSub p (pyStrip s) with
  | false => rfl
  | true =>
    rw [huv, hasSub_append_left (hasSub_append_right hh)] at h
    cases h

theorem mem_pyStrip {c : Char} {s : List Char} (h : c ∈ pyStrip s) : c ∈ s := by
  obtain ⟨u, v, huv⟩ := pyStrip_decomp s
  rw [huv]
  simp [h]

/-! ### Retry loop lemmas -/

theorem geminiGo_spec (svc : Nat → GemResult) :
    ∀ (k a r : Nat) (c : List Char),
      (∀ i, i < k → svc (a + i) = GemResult.overloaded) →
      svc (a + k) = GemResult.success c → k < r →
      geminiGo svc a r = (k + 1, k, c) := by
  intro k
  induction k with
  | zero =>
    intro a r c _ hsucc hr
    cases r with
    | zero => omega
    | succ r' =>
      rw [Nat.add_zero] at hsucc
      unfold geminiGo
      rw [hsucc]
  | succ k ih =>
    intro a r c hover hsucc hr
    cases r with
    | zero => omega
    | succ r' =>
      have h0 : svc a = GemResult.overloaded := by
        have := hover 0 (by omega)
        simpa using this
      have hrec := ih (a + 1) r' c
        (fun i hi => by
          have hh := hover (i + 1) (by omega)
          rw [show a + 1 + i = a + (i + 1) from by omega]
          exact hh)
        (by rw [show a + 1 + k = a + (k + 1) from by omega]; exact hsucc)
        (by omega)
      unfold geminiGo
      rw [h0, hrec]

theorem geminiGo_error (svc : Nat → GemResult) (mr : Nat) (h1 : 1 ≤ mr)
    (h0 : svc 0 = GemResult.error) :
    gemini_illustrate_file svc mr = (1, 0, []) := by
  cases mr with
  | zero => omega
  | succ r =>
    unfold gemini_illustrate_file geminiGo
    rw [h0]

/-! ### Orchestrator step lemmas -/

theorem processIllustration_cache_hit (service : List Char → Option (List Nat))
    (rel : List Char) (st : IllState) (ill : List Char) (bytes : List Nat)
    (h : st.cache st.counter = some bytes) :
    (processIllustration service rel st ill).calls = st.calls
    ∧ (processIllustration service rel st ill).images st.counter = some bytes
    ∧ (processIllustration service rel st ill).counter = st.counter + 1 := by
  unfold processIllustration
  simp [h]

theorem processIllustration_content (service : List Char → Option (List Nat))
    (rel : List Char) (st : IllState) (ill : List Char) :
    (processIllustration service rel st ill).content
      = replaceAll (markerStr ill)
          (imgTag (rel ++ '/' :: illFilename st.counter) ill) st.content := by
  unfold processIllustration
  cases h : st.cache st.counter with
  | some bytes => simp only [h]
  | none =>
    cases hs : service ill with
    | some bytes => simp only [h, hs]
    | none => simp only [h, hs]

/-! ### Spine loop lemmas -/

theorem spineLoop_all_present (m : String → Option String) (dir : List String) :
    ∀ (refs : List String), (∀ r ∈ refs, (m r).isSome = true) →
      spineLoop m dir refs = some (refs.map (resolveRef m dir)) := by
  intro refs
  induction refs with
  | nil => intro _; rfl
  | cons r rest ih =>
    intro h
    have hr : (m r).isSome = true := h r (List.mem_cons_self _ _)
    unfold spineLoop
    cases hm : m r with
    | none => rw [hm] at hr; cases hr
    | some href =>
      rw [ih (fun x hx => h x (List.mem_cons_of_mem _ hx))]
      simp only [List.map_cons, Option.map_some', resolveRef, hm]

theorem spineLoop_missing (m : String → Option String) (dir : List String) :
    ∀ (refs : List String), (∃ r ∈ refs, m r = none) →
      spineLoop m dir refs = none := by
  intro refs
  induction refs with
  | nil => rintro ⟨r, hr, _⟩; cases hr
  | cons a rest ih =>
    rintro ⟨r, hr, hnone⟩
    unfold spineLoop
    rcases List.mem_cons.mp hr with rfl | hmem
    · rw [hnone]
    · cases hm : m a with
      | none => rfl
      | some href =>
        rw [ih ⟨r, hmem, hnone⟩]
        rfl

/-! ### Totality of extraction: helper lemmas -/

theorem findSub_some_hasSub {p s : List Char} {n : Nat}
    (h : findSub p s = some n) : hasSub p s = true :=
  matchAt_hasSub (findSub_first h).1

theorem extractLines_isSome :
    ∀ (P : List (List Char)), (∀ l ∈ P, lineOk l = true) →
      (extractLines P).isSome = true := by
  intro P
  induction P with
  | nil => intro _; rfl
  | cons line P ih =>
    intro h
    have h1 : lineOk line = true := h line (List.mem_cons_self _ _)
    have hrest := ih (fun l hl => h l (List.mem_cons_of_mem _ hl))
    simp only [extractLines]
    by_cases ht : hasSub tok line = true
    · rw [if_pos ht]
      unfold lineOk at h1
      rw [ht] at h1
      simp only [Bool.not_true, Bool.false_or] at h1
      obtain ⟨n, hn⟩ := hasSub_findSub h1
      rw [hn]
      cases hP : extractLines P with
      | none => rw [hP] at hrest; cases hrest
      | some ds => rfl
    · rw [if_neg ht]
      exact hrest

theorem extractLines_none :
    ∀ (P : List (List Char)), (∃ l ∈ P, lineOk l = false) →
      extractLines P = none := by
  intro P
  induction P with
  | nil => rintro ⟨l, hl, _⟩; cases hl
  | cons line P ih =>
    rintro ⟨l, hl, hbad⟩
    simp only [extractLines]
    rcases List.mem_cons.mp hl with rfl | hmem
    · by_cases ht : hasSub tok l = true
      · rw [if_pos ht]
        unfold lineOk at hbad
        rw [ht] at hbad
        simp only [Bool.not_true, Bool.false_or] at hbad
        cases hfs : findSub arrow
            (l.drop ((findSub tok l).getD 0 + tok.length)) with
        | none => rfl
        | some n =>
          rw [findSub_some_hasSub hfs] at hbad
          cases hbad
      · rw [Bool.not_eq_true] at ht
        unfold lineOk at hbad
        rw [ht] at hbad
        simp at hbad
    · have hrest := ih ⟨l, hmem, hbad⟩
      by_cases ht : hasSub tok line = true
      · rw [if_pos ht]
        cases hfs : findSub arrow
            (line.drop ((findSub tok line).getD 0 + tok.length)) with
        | none => rfl
        | some n => rw [hrest]
      · rw [if_neg ht]
        exact hrest

/-! ## The claims -/

/-- Claim C1, corrected.  The claim says that when generation fails (cache
miss and image-service failure) the marker comment is left unreplaced in the
content.  In the source (src/image_gen.py lines 255-270) the
`illustrated_content.replace(...)` call at line 267 is outside the
success/failure branch, so the replacement is applied unconditionally: the
content always becomes `replaceAll` of the marker by the image tag,
whatever the cache and the service did. -/
theorem marker_replaced_even_on_failure :
    ∀ (service : List Char → Option (List Nat)) (rel : List Char)
      (st : IllState) (ill : List Char),
      (processIllustration service rel st ill).content
        = replaceAll (markerStr ill)
            (imgTag (rel ++ '/' :: illFilename st.counter) ill) st.content :=
  processIllustration_content

/-- Claim C1, counterexample to the claim as stated: a state whose cache
misses (cache 0 = none) and whose image service fails (returns none), yet
after the step the marker comment is gone from the content - it was replaced
by an image tag pointing at a file that was never produced. -/
theorem marker_not_left_on_failure_cex :
    (IllState.mk 0 (fun _ => none) (fun _ => none) []
        (markerStr "cat".data)).cache 0 = none
    ∧ (fun _ : List Char => (none : Option (List Nat))) "cat".data = none
    ∧ hasSub (markerStr "cat".data)
        ((processIllustration (fun _ => none) "Images".data
          (IllState.mk 0 (fun _ => none) (fun _ => none) []
            (markerStr "cat".data))
          "cat".data).content) = false := by
  refine ⟨rfl, rfl, ?_⟩
  decide

/-- Claim C2, corrected.  The claim says one replacement call substitutes
exactly the first remaining occurrence of the marker.  The source uses
Python `str.replace` with no count argument (src/image_gen.py line 267),
which substitutes *every* occurrence: with the marker present twice, a
single call rewrites both occurrences. -/
theorem replace_call_substitutes_all (d R a b c : List Char)
    (h1 : ∀ i, i < a.length →
      ¬ matchAt (markerStr d) (a ++ markerStr d ++ (b ++ markerStr d ++ c)) i)
    (h2 : ∀ i, i < b.length →
      ¬ matchAt (markerStr d) (b ++ markerStr d ++ c) i)
    (h3 : hasSub (markerStr d) c = false) :
    replaceAll (markerStr d) (imgTag R d)
        (a ++ markerStr d ++ (b ++ markerStr d ++ c))
      = a ++ imgTag R d ++ (b ++ imgTag R d ++ c) := by
  rw [replaceAll_split (markerStr_ne_nil d) a h1,
    replaceAll_split (markerStr_ne_nil d) b h2,
    replaceAll_no_match _ c h3]

/-- Claim C2, witness for the corrected statement: with the marker for
`cat` occurring twice (separated by a newline), one call rewrites both. -/
theorem replace_call_substitutes_all_witness :
    replaceAll (markerStr "cat".data) (imgTag "i.png".data "cat".data)
        ([] ++ markerStr "cat".data
          ++ (['\n'] ++ markerStr "cat".data ++ []))
      = [] ++ imgTag "i.png".data "cat".data
          ++ (['\n'] ++ imgTag "i.png".data "cat".data ++ []) :=
  replace_call_substitutes_all "cat".data "i.png".data [] ['\n'] []
    (by decide) (by decide) (by decide)

/-- Claim C2, counterexample to the claim as stated: the text contains the
marker twice; after ONE replacement call zero occurrences remain, not one:
the call did not stop after the first occurrence. -/
theorem replace_first_only_cex :
    countSub (markerStr "cat".data)
        (markerStr "cat".data ++ '\n' :: markerStr "cat".data) = 2
    ∧ countSub (markerStr "cat".data)
        (replaceAll (markerStr "cat".data)
          (imgTag "i.png".data "cat".data)
          (markerStr "cat".data ++ '\n' :: markerStr "cat".data)) = 0 := by
  constructor <;> decide

/-- Claim C3, confirmed.  When a cache entry exists for the current counter
(`illustration_<counter>.png`, a key computed from the counter alone - the
statement quantifies over an arbitrary description `ill`), the orchestrator
step copies the cached bytes to the destination and makes no image-service
call. -/
theorem cache_hit_uses_index_key
    (service : List Char → Option (List Nat)) (rel : List Char)
    (st : IllState) (ill : List Char) (bytes : List Nat)
    (h : st.cache st.counter = some bytes) :
    (processIllustration service rel st ill).calls = st.calls
    ∧ (processIllustration service rel st ill).images st.counter = some bytes
    ∧ (processIllustration service rel st ill).counter = st.counter + 1 :=
  processIllustration_cache_hit service rel st ill bytes h

/-- Claim C3, witness: with bytes `[7]` cached under index 0, the step makes
no service call and copies `[7]` to the destination. -/
theorem cache_hit_uses_index_key_witness :
    (IllState.mk 0 (fun j => if j = 0 then some [7] else none)
        (fun _ => none) [] []).cache 0 = some [7]
    ∧ ((processIllustration (fun _ => some [9]) "Images".data
          (IllState.mk 0 (fun j => if j = 0 then some [7] else none)
            (fun _ => none) [] []) "cat".data).calls = []
      ∧ (processIllustration (fun _ => some [9]) "Images".data
          (IllState.mk 0 (fun j => if j = 0 then some [7] else none)
            (fun _ => none) [] []) "cat".data).images 0 = some [7]
      ∧ (processIllustration (fun _ => some [9]) "Images".data
          (IllState.mk 0 (fun j => if j = 0 then some [7] else none)
            (fun _ => none) [] []) "cat".data).counter = 1) :=
  ⟨rfl, cache_hit_uses_index_key _ _ _ _ _ rfl⟩

/-- Claim C4, confirmed.  When every spine `idref` has a manifest entry, the
spine loop returns exactly the document-order image of the idref list under
per-idref resolution (manifest lookup, then join with the OPF directory and
normalisation); when some idref has no manifest entry, the loop fails
(`none`, modelling the `KeyError` / `MalformedPackage`). -/
theorem spine_resolution_order (items : List (String × String))
    (opfDir : List String) (refs : List String) :
    ((∀ r ∈ refs, (buildManifest items r).isSome = true) →
      spineLoop (buildManifest items) opfDir refs
        = some (refs.map (resolveRef (buildManifest items) opfDir)))
    ∧ ((∃ r ∈ refs, buildManifest items r = none) →
      spineLoop (buildManifest items) opfDir refs = none) :=
  ⟨spineLoop_all_present _ _ refs, spineLoop_missing _ _ refs⟩

/-- Claim C4, witness: a two-item manifest resolves a two-entry spine in
order (with the href joined to the OPF directory and normalised), and a
dangling idref fails. -/
theorem spine_resolution_order_witness :
    spineLoop (buildManifest [("ch1", "Text/ch1.xhtml"), ("ch2", "ch2.xhtml")])
        ["OEBPS"] ["ch1", "ch2"]
      = some [["OEBPS", "Text", "ch1.xhtml"], ["OEBPS", "ch2.xhtml"]]
    ∧ spineLoop (buildManifest [("ch1", "Text/ch1.xhtml")]) ["OEBPS"]
        ["missing"] = none := by
  constructor
  · have h := (spine_resolution_order
      [("ch1", "Text/ch1.xhtml"), ("ch2", "ch2.xhtml")] ["OEBPS"]
      ["ch1", "ch2"]).1 (by decide)
    rw [h]
    rfl
  · exact (spine_resolution_order [("ch1", "Text/ch1.xhtml")] ["OEBPS"]
      ["missing"]).2 ⟨"missing", by decide, rfl⟩

/-- Claim C5, confirmed.  For a working tree containing a root-level
`mimetype` file, the produced archive has `mimetype` stored uncompressed as
entry 0, every other entry deflated under its relative path and not named
`mimetype`, and exactly one `mimetype` entry in total. -/
theorem zip_mimetype_invariant (files : List (List String))
    (h : ["mimetype"] ∈ files) :
    (zip_epub files).head? = some (ZipEntry.mk ["mimetype"] ZipMethod.stored)
    ∧ (∀ e ∈ (zip_epub files).tail,
        e.method = ZipMethod.deflated ∧ e.name ≠ ["mimetype"])
    ∧ ((zip_epub files).filter
        (fun e => e.name = ["mimetype"])).length = 1 := by
  unfold zip_epub
  rw [if_pos h, List.singleton_append]
  refine ⟨rfl, ?_, ?_⟩
  · intro e he
    rw [List.tail_cons] at he
    obtain ⟨p, hp, rfl⟩ := List.mem_map.mp he
    obtain ⟨hpmem, hpne⟩ := List.mem_filter.mp hp
    exact ⟨rfl, by simpa using hpne⟩
  · have htail : ((files.filter (fun p => p ≠ ["mimetype"])).map
        (fun p => ZipEntry.mk p ZipMethod.deflated)).filter
        (fun e => e.name = ["mimetype"]) = [] := by
      rw [List.filter_eq_nil_iff]
      intro e he
      obtain ⟨p, hp, rfl⟩ := List.mem_map.mp he
      obtain ⟨_, hpne⟩ := List.mem_filter.mp hp
      simpa using hpne
    rw [List.filter_cons, if_pos (by simp), htail]
    rfl

/-- Claim C5, witness: a tree with `mimetype`, a nested content document and
a second root file produces the required archive shape. -/
theorem zip_mimetype_invariant_witness :
    ["mimetype"] ∈ [["mimetype"], ["OEBPS", "ch1.xhtml"], ["toc.ncx"]]
    ∧ ((zip_epub [["mimetype"], ["OEBPS", "ch1.xhtml"], ["toc.ncx"]]).head?
        = some (ZipEntry.mk ["mimetype"] ZipMethod.stored)
      ∧ (∀ e ∈ (zip_epub [["mimetype"], ["OEBPS", "ch1.xhtml"],
            ["toc.ncx"]]).tail,
          e.method = ZipMethod.deflated ∧ e.name ≠ ["mimetype"])
      ∧ ((zip_epub [["mimetype"], ["OEBPS", "ch1.xhtml"],
            ["toc.ncx"]]).filter
          (fun e => e.name = ["mimetype"])).length = 1) :=
  ⟨by decide, zip_mimetype_invariant _ (by decide)⟩

/-- Claim C6, confirmed.  For a text that is exactly one canonical marker
with trimmed description `D` between token-free surroundings (each marker on
its own line; the replacement image tag not already present), extraction
yields `[D]`; replacing the marker string by the image tag (whose alt text
is the HTML-escaped description, see `imgTag`) removes the marker - no
occurrence of the marker string remains - and leaves exactly one occurrence
of the image tag. -/
theorem marker_round_trip (D R A B : List Char)
    (hDtrim : pyStrip D = D)
    (hDarrow : hasSub arrow D = false)
    (hDnl : '\n' ∉ D)
    (htokA : hasSub tok A = false) (htokB : hasSub tok B = false)
    (hA : A = [] ∨ ∃ A2, A = A2 ++ ['\n'])
    (hB : B = [] ∨ ∃ B2, B = '\n' :: B2)
    (hRlt : '<' ∉ R) (hRnl : '\n' ∉ R)
    (himgA : hasSub (imgTag R D) A = false)
    (himgB : hasSub (imgTag R D) B = false) :
    extract_illustrations (A ++ markerStr D ++ B) = some [D]
    ∧ replaceAll (markerStr D) (imgTag R D) (A ++ markerStr D ++ B)
        = A ++ imgTag R D ++ B
    ∧ hasSub (markerStr D) (A ++ imgTag R D ++ B) = false
    ∧ countSub (imgTag R D) (A ++ imgTag R D ++ B) = 1 := by
  have hciv : hasSub arrow (' ' :: (D ++ [' '])) = false :=
    arrow_free_wrap hDarrow
  have hcivnl : '\n' ∉ ' ' :: (D ++ [' ']) := by
    intro hh
    rcases List.mem_cons.mp hh with h1 | h1
    · exact absurd h1 (by decide)
    rcases List.mem_append.mp h1 with h2 | h2
    · exact hDnl h2
    · exact absurd h2 (by decide)
  have hmker : '\n' ∉ markerStr D := nl_not_mem_markerStr hDnl
  have hmA : hasSub (markerStr D) A = false := no_marker_of_no_tok htokA
  have hmB : hasSub (markerStr D) B = false := no_marker_of_no_tok htokB
  have himgnl : '\n' ∉ imgTag R D := nl_not_mem_imgTag hRnl hDnl
  have himgne : imgTag R D ≠ [] := by
    intro hh
    have := congrArg List.length hh
    simp [imgTag] at this
  refine ⟨?_, ?_, ?_, ?_⟩
  · have hx := @extract_sandwich A (' ' :: (D ++ [' '])) B
      htokA htokB hciv hcivnl hA hB
    rw [pyStrip_wrap, hDtrim] at hx
    rw [markerStr_decomp]
    exact hx
  · exact sandwich_replace (markerStr_ne_nil D) hmker hmA hmB hA hB
  · have hmimg : hasSub (markerStr D) (imgTag R D) = false :=
      no_marker_of_no_tok (tok_not_in_imgTag hRlt)
    exact hasSub_sandwich_false (markerStr_ne_nil D) hmker hmA hmimg hmB hA hB
  · exact sandwich_count himgne himgnl himgA himgB hA hB

/-- Claim C6, witness at description `cat` and reference `i.png` with empty
surroundings. -/
theorem marker_round_trip_witness :
    pyStrip "cat".data = "cat".data
    ∧ (extract_illustrations ([] ++ markerStr "cat".data ++ [])
          = some ["cat".data]
      ∧ replaceAll (markerStr "cat".data) (imgTag "i.png".data "cat".data)
          ([] ++ markerStr "cat".data ++ [])
          = [] ++ imgTag "i.png".data "cat".data ++ []
      ∧ hasSub (markerStr "cat".data)
          ([] ++ imgTag "i.png".data "cat".data ++ []) = false
      ∧ countSub (imgTag "i.png".data "cat".data)
          ([] ++ imgTag "i.png".data "cat".data ++ []) = 1) :=
  ⟨by decide,
    marker_round_trip "cat".data "i.png".data [] [] (by decide) (by decide)
      (by decide) (by decide) (by decide) (Or.inl rfl) (Or.inl rfl)
      (by decide) (by decide) (by decide) (by decide)⟩

/-- Claim C7, confirmed.  The augmentation loop retries only on the
transient/overload signal, sleeping once per retry, up to the retry
ceiling; a stub that is overloaded for the first N-1 calls and then
succeeds is called exactly N times (with N-1 backoff sleeps) and returns
the augmented content; any other error aborts after a single call with no
retry (returning the empty content). -/
theorem augmentation_retry_policy :
    (∀ (svc : Nat → GemResult) (maxRetries N : Nat) (c : List Char),
      1 ≤ N → N ≤ maxRetries →
      (∀ i, i < N - 1 → svc i = GemResult.overloaded) →
      svc (N - 1) = GemResult.success c →
      gemini_illustrate_file svc maxRetries = (N, N - 1, c))
    ∧ (∀ (svc : Nat → GemResult) (maxRetries : Nat),
      1 ≤ maxRetries → svc 0 = GemResult.error →
      gemini_illustrate_file svc maxRetries = (1, 0, [])) := by
  constructor
  · intro svc mr N c hN hceil hover hsucc
    have hgo := geminiGo_spec svc (N - 1) 0 mr c
      (fun i hi => by simpa using hover i hi)
      (by simpa using hsucc)
      (by omega)
    unfold gemini_illustrate_file
    rw [hgo]
    have hN1 : N - 1 + 1 = N := by omega
    rw [hN1]
  · intro svc mr h1 h0
    exact geminiGo_error svc mr h1 h0

/-- Claim C7, witness: a stub overloaded on calls 0 and 1 and successful on
call 2, under ceiling 5, is called exactly 3 times with 2 sleeps and yields
the content; an erroring stub is called once. -/
theorem augmentation_retry_policy_witness :
    gemini_illustrate_file
        (fun i => if i < 2 then GemResult.overloaded
                  else GemResult.success "ok".data) 5
      = (3, 2, "ok".data)
    ∧ gemini_illustrate_file (fun _ => GemResult.error) 5 = (1, 0, []) :=
  ⟨augmentation_retry_policy.1 _ 5 3 "ok".data (by omega) (by omega)
      (by decide) (by decide),
    augmentation_retry_policy.2 _ 5 (by omega) rfl⟩

/-- Claim C8, corrected.  The claim says `--max-files N` always truncates to
the first N entries, with N = 0 processing nothing.  In the source
(src/image_gen.py line 205) the condition is `if max_files and max_files >
0:`, and `0` is falsy in Python, so N = 0 (and any N < 0) skips the
truncation entirely and every spine entry is processed; only N > 0
truncates to the first N entries. -/
theorem max_files_truncation (n : Int) (spine : List String) :
    (0 < n → limitSpine (some n) spine = spine.take n.toNat)
    ∧ (n ≤ 0 → limitSpine (some n) spine = spine)
    ∧ limitSpine none spine = spine := by
  refine ⟨?_, ?_, rfl⟩
  · intro h
    show (if n ≠ 0 ∧ 0 < n then spine.take n.toNat else spine)
      = spine.take n.toNat
    rw [if_pos ⟨by omega, h⟩]
  · intro h
    show (if n ≠ 0 ∧ 0 < n then spine.take n.toNat else spine) = spine
    rw [if_neg (by rintro ⟨h1, h2⟩; omega)]

/-- Claim C8, witness for the corrected statement: N = 1 keeps the first
entry only; a non-positive N leaves the spine untouched. -/
theorem max_files_truncation_witness :
    limitSpine (some 1) ["a", "b"] = ["a"]
    ∧ limitSpine (some (-2)) ["a", "b"] = ["a", "b"] := by
  constructor
  · have h := (max_files_truncation 1 ["a", "b"]).1 (by omega)
    rw [h]
    rfl
  · exact (max_files_truncation (-2) ["a", "b"]).2.1 (by omega)

/-- Claim C8, counterexample to the claim as stated: with `--max-files 0`
the claim predicts no documents processed, but the loop input is the whole
spine. -/
theorem max_files_zero_cex :
    limitSpine (some 0) ["a", "b"] = ["a", "b"]
    ∧ limitSpine (some 0) ["a", "b"] ≠ ([] : List String) := by
  constructor
  · rfl
  · decide

/-- Claim C9, confirmed.  Replacement targets only the exact literal
`<!-- illustration: D -->` (see `markerStr`).  A marker whose interior
deviates from that exact shape (interior `iv` trims to `D` but differs from
`' ' :: D ++ ' '`) is still extracted - extraction yields its trimmed
description - yet no replacement ever rewrites it: the replacement call is
the identity on the content, so the non-canonical marker survives verbatim
(while still having consumed a generation index and possibly a service
call in the orchestrator loop). -/
theorem nonstandard_marker_not_replaced (D iv A B : List Char)
    (hstrip : pyStrip iv = D)
    (hivarrow : hasSub arrow iv = false)
    (hivtok : hasSub tok iv = false)
    (hivnl : '\n' ∉ iv)
    (htokA : hasSub tok A = false) (htokB : hasSub tok B = false)
    (hA : A = [] ∨ ∃ A2, A = A2 ++ ['\n'])
    (hB : B = [] ∨ ∃ B2, B = '\n' :: B2)
    (hvar : iv ≠ ' ' :: (D ++ [' '])) :
    extract_illustrations (A ++ (tok ++ iv ++ arrow) ++ B) = some [D]
    ∧ ∀ rep, replaceAll (markerStr D) rep (A ++ (tok ++ iv ++ arrow) ++ B)
        = A ++ (tok ++ iv ++ arrow) ++ B := by
  have hDarrow : hasSub arrow D = false := by
    rw [← hstrip]
    exact hasSub_pyStrip hivarrow
  have hDnl : '\n' ∉ D := by
    intro hh
    rw [← hstrip] at hh
    exact hivnl (mem_pyStrip hh)
  constructor
  · have hx := extract_sandwich htokA htokB hivarrow hivnl hA hB
    rw [hstrip] at hx
    exact hx
  · intro rep
    exact replaceAll_no_match rep _
      (variant_no_canonical htokA htokB hivtok hivarrow hDarrow hDnl
        hA hB hvar)

/-- Claim C9, witness: the marker `<!-- illustration:cat-->` (no space after
the colon) is extracted as `cat`, and the canonical-target replacement
leaves the text unchanged. -/
theorem nonstandard_marker_witness :
    extract_illustrations ([] ++ (tok ++ "cat".data ++ arrow) ++ [])
      = some ["cat".data]
    ∧ replaceAll (markerStr "cat".data) "X".data
        ([] ++ (tok ++ "cat".data ++ arrow) ++ [])
      = [] ++ (tok ++ "cat".data ++ arrow) ++ [] := by
  have h := nonstandard_marker_not_replaced "cat".data "cat".data [] []
    (by decide) (by decide) (by decide) (by decide) (by decide) (by decide)
    (Or.inl rfl) (Or.inl rfl) (by decide)
  exact ⟨h.1, h.2 "X".data⟩

/-- Claim C10, confirmed.  Extraction succeeds exactly under the
precondition that every line containing the opening token also has a `-->`
after the (first) token on the same line; if some line violates it,
extraction fails (`none`, modelling the uncaught `ValueError` from
`line.index('-->', start)`). -/
theorem extraction_totality (content : List Char) :
    ((∀ l ∈ splitLines content, lineOk l = true) →
      (extract_illustrations content).isSome = true)
    ∧ ((∃ l ∈ splitLines content, lineOk l = false) →
      extract_illustrations content = none) :=
  ⟨fun h => extractLines_isSome _ h, fun h => extractLines_none _ h⟩

/-- Claim C10, witness: a well-delimited marker line extracts successfully;
a line with the opening token and no closing delimiter makes extraction
fail. -/
theorem extraction_totality_witness :
    (extract_illustrations "ok\n<!-- illustration: x -->\nend".data).isSome
      = true
    ∧ extract_illustrations "bad <!-- illustration: x".data = none :=
  ⟨(extraction_totality _).1 (by decide),
    (extraction_totality _).2
      ⟨"bad <!-- illustration: x".data, by decide, by decide⟩⟩
